import Mathlib

/-!
Shallow embedding of the knight's tour search engine of `Knight.py`
(class `KnightsTour`): the single-attempt Warnsdorff solver with its three
scoring variants, the multi-attempt orchestrator with path-fingerprint
deduplication, and the iterative stack-based backtracking solver.

Python's global pseudo-random generator is modelled by an abstract state
`PyRandom` (current seed and stream position) together with abstract value
families `famQ` (the values produced by `random.random()`) and `famPerm`
(the permutations produced by `random.shuffle` on `list(range(8))`, with
the amount of stream it consumes).  Python floats are modelled as rationals.
The built-in `hash` applied to the string sample of a path is modelled by an
abstract function on the sampled (prefix, suffix) pair of the path.
-/

namespace Knight

/-- A position on the board: an integer `(row, column)` pair, exactly the
`(x, y)` tuples the Python source stores in `self.path`. -/
abbrev Pos := Int × Int

/-- `self.board`, modelled as a total function from integer coordinates to the
stored value; `-1` is the unvisited sentinel.  All reads and writes performed
by the source on the claims' inputs are in bounds, so a total function is a
faithful model of the Python list-of-lists. -/
abbrev Board := Int → Int → Int

/-- The freshly constructed board: `[[-1 for _ in range(size)] for _ in range(size)]`. -/
def emptyBoard : Board := fun _ _ => -1

/-- A single assignment `self.board[x][y] = v`. -/
def Board.set (b : Board) (x y v : Int) : Board :=
  fun i j => if i = x ∧ j = y then v else b i j

/-- `self.moves_x = [2, 1, -1, -2, -2, -1, 1, 2]`. -/
def movesX : List Int := [2, 1, -1, -2, -2, -1, 1, 2]

/-- `self.moves_y = [1, 2, 2, 1, -1, -2, -2, -1]`. -/
def movesY : List Int := [1, 2, 2, 1, -1, -2, -2, -1]

/-- `is_valid_move(x, y)`: inside the `size × size` board and unvisited. -/
def isValidMove (n : Nat) (b : Board) (x y : Int) : Bool :=
  decide (0 ≤ x ∧ x < (n : Int) ∧ 0 ≤ y ∧ y < (n : Int) ∧ b x y = -1)

/-- `_count_valid_moves(x, y)`: the number of move indices `i < 8` whose target
from `(x, y)` is a valid move (the Warnsdorff degree). -/
def countValidMoves (n : Nat) (b : Board) (x y : Int) : Nat :=
  ((List.range 8).filter
    (fun i => isValidMove n b (x + movesX.getD i 0) (y + movesY.getD i 0))).length

/-- Python floats are modelled as exact fractions, kept unnormalised: the
value is `num / den` (with `den > 0` throughout; every float the source
manipulates is produced from integers and `random.random()` values by `+`,
`*` and unary minus).  Comparisons are by value, via cross-multiplication. -/
structure PyFloat where
  num : Int
  den : Int
  deriving DecidableEq, Repr

/-- Embedding of an integer into the float model. -/
def PyFloat.ofInt (a : Int) : PyFloat := ⟨a, 1⟩

/-- Exact float addition. -/
def PyFloat.add (a b : PyFloat) : PyFloat :=
  ⟨a.num * b.den + b.num * a.den, a.den * b.den⟩

/-- Exact float multiplication. -/
def PyFloat.mul (a b : PyFloat) : PyFloat := ⟨a.num * b.num, a.den * b.den⟩

/-- Value-level `<` (for positive denominators). -/
def PyFloat.lt (a b : PyFloat) : Prop := a.num * b.den < b.num * a.den

/-- Value-level equality (for positive denominators). -/
def PyFloat.eqv (a b : PyFloat) : Prop := a.num * b.den = b.num * a.den

instance (a b : PyFloat) : Decidable (PyFloat.lt a b) :=
  inferInstanceAs (Decidable (a.num * b.den < b.num * a.den))

instance (a b : PyFloat) : Decidable (PyFloat.eqv a b) :=
  inferInstanceAs (Decidable (a.num * b.den = b.num * a.den))

/-- The rational value of a modelled float. -/
def PyFloat.toRat (a : PyFloat) : ℚ := (a.num : ℚ) / (a.den : ℚ)

/-- The literal `0.1` of the source (`random.random() * 0.1`). -/
def tenth : PyFloat := ⟨1, 10⟩

/-- The state of Python's global random generator, abstracted: the seed last
installed by `random.seed` and the position reached in that seed's stream. -/
structure PyRandom where
  sd : Int
  pos : Nat
  deriving DecidableEq, Repr

/-- `random.seed(s)` deterministically reinitialises the global generator. -/
def pySeed (s : Int) : PyRandom := ⟨s, 0⟩

/-- `random.random()`: produces the next value of the seed's stream (the
abstract family `famQ`, one float in `[0, 1)` with positive denominator per
seed and position) and advances the stream. -/
def pyRandom (famQ : Int → Nat → PyFloat) (r : PyRandom) : PyFloat × PyRandom :=
  (famQ r.sd r.pos, ⟨r.sd, r.pos + 1⟩)

/-- `random.shuffle(list(range(8)))`: the abstract family `famPerm` gives, per
seed and stream position, the resulting permutation of `[0, …, 7]` and the
stream position after the shuffle's internal draws. -/
def pyShuffle (famPerm : Int → Nat → List Nat × Nat) (r : PyRandom) :
    List Nat × PyRandom :=
  ((famPerm r.sd r.pos).1, ⟨r.sd, (famPerm r.sd r.pos).2⟩)

/-- `_score_random`: Python returns the one-element tuple
`(degree + random_factor,)`.  All scores are modelled as pairs compared
lexicographically; padding the one-element tuple with a constant second
component yields exactly the same comparison results within one scoring mode,
and the source never compares scores of different modes. -/
def scoreRandom (deg : Nat) (rf : PyFloat) : PyFloat × PyFloat :=
  ((PyFloat.ofInt (deg : Int)).add rf, PyFloat.ofInt 0)

/-- `_score_center`: `(degree, dist_to_center + random_factor)` with
`center = size // 2` on both axes and Manhattan distance. -/
def scoreCenter (n : Nat) (nx ny : Int) (deg : Nat) (rf : PyFloat) : PyFloat × PyFloat :=
  (PyFloat.ofInt (deg : Int),
    (PyFloat.ofInt (|nx - ((n / 2 : Nat) : Int)| + |ny - ((n / 2 : Nat) : Int)|)).add rf)

/-- `_score_corners`: `(degree, -min_corner_dist + random_factor)`, the minimum
Manhattan distance to the four corners `(0,0), (0,n-1), (n-1,0), (n-1,n-1)`
(Python's `min` over the four values; `min` is associative and commutative so
the grouping is irrelevant). -/
def scoreCorners (n : Nat) (nx ny : Int) (deg : Nat) (rf : PyFloat) : PyFloat × PyFloat :=
  (PyFloat.ofInt (deg : Int),
    (PyFloat.ofInt
      (-(min (min (|nx| + |ny|) (|nx| + |ny - ((n : Int) - 1)|))
          (min (|nx - ((n : Int) - 1)| + |ny|)
            (|nx - ((n : Int) - 1)| + |ny - ((n : Int) - 1)|))))).add rf)

/-- The scoring-function dispatch of `_solve_with_warnsdorff_variation`:
`variation == 1` selects the center score, `variation == 2` the corner score,
anything else the random score. -/
def scoringFunc (n variation : Nat) (nx ny : Int) (deg : Nat) (rf : PyFloat) :
    PyFloat × PyFloat :=
  if variation = 1 then scoreCenter n nx ny deg rf
  else if variation = 2 then scoreCorners n nx ny deg rf
  else scoreRandom deg rf

/-- Python's `<` on score tuples: lexicographic comparison. -/
def scoreLt (s t : PyFloat × PyFloat) : Bool :=
  decide (PyFloat.lt s.1 t.1 ∨ (PyFloat.eqv s.1 t.1 ∧ PyFloat.lt s.2 t.2))

/-- The candidate-collection loop of `_get_next_move_warnsdorff_generic_detailed`:
walk the move preferences in order, keep the valid targets, score each with a
fresh `random.random() * 0.1` tie-break, and thread the random state. -/
def collectCands (famQ : Int → Nat → PyFloat) (n : Nat) (b : Board) (x y : Int)
    (prefs : List Nat) (variation : Nat) (r : PyRandom) :
    List ((PyFloat × PyFloat) × Pos) × PyRandom :=
  prefs.foldl
    (fun acc i =>
      let nx := x + movesX.getD i 0
      let ny := y + movesY.getD i 0
      if isValidMove n b nx ny then
        let deg := countValidMoves n b nx ny
        let rf := (famQ acc.2.sd acc.2.pos).mul tenth
        (acc.1 ++ [(scoringFunc n variation nx ny deg rf, (nx, ny))],
          ⟨acc.2.sd, acc.2.pos + 1⟩)
      else acc)
    ([], r)

/-- `moves.sort(key=...)` followed by `moves[0]`: Python's sort is stable, so
the selected element is the first list element attaining the minimal score,
which is what this fold computes. -/
def pickBest : List ((PyFloat × PyFloat) × Pos) → Option ((PyFloat × PyFloat) × Pos)
  | [] => none
  | m :: ms => some (ms.foldl (fun best c => if scoreLt c.1 best.1 then c else best) m)

/-- `_get_next_move_warnsdorff_generic_detailed`: `none` when no valid move
exists, otherwise the best-scored target (diagnostic details omitted). -/
def getNextMove (famQ : Int → Nat → PyFloat) (n : Nat) (b : Board) (x y : Int)
    (prefs : List Nat) (variation : Nat) (r : PyRandom) : Option Pos × PyRandom :=
  let res := collectCands famQ n b x y prefs variation r
  match pickBest res.1 with
  | none => (none, res.2)
  | some m => (some m.2, res.2)

/-- The mutable attempt state: `self.board`, `self.path` and the global random
generator. -/
structure WSt where
  board : Board
  path : List Pos
  rng : PyRandom

/-- The `for move_count in range(1, size*size)` loop of
`_solve_with_warnsdorff_variation`: `rem` counts the remaining iterations,
`mc` is the current `move_count`, `c` the current cell. -/
def warnsLoop (famQ : Int → Nat → PyFloat) (n variation : Nat) (prefs : List Nat) :
    Nat → Nat → Pos → WSt → Bool × WSt
  | _, 0, _, st => (true, st)
  | mc, rem + 1, c, st =>
    match getNextMove famQ n st.board c.1 c.2 prefs variation st.rng with
    | (none, r2) => (false, { st with rng := r2 })
    | (some nc, r2) =>
      warnsLoop famQ n variation prefs (mc + 1) rem nc
        { board := st.board.set nc.1 nc.2 (mc : Int),
          path := st.path ++ [nc], rng := r2 }

/-- `_solve_with_warnsdorff_variation(start_x, start_y, variation, prefs)`:
places the start at order 0 on the incoming board, replaces the path wholesale,
then runs `size*size - 1` greedy steps. -/
def solveVariation (famQ : Int → Nat → PyFloat) (n : Nat) (sx sy : Int)
    (variation : Nat) (prefs : List Nat) (b0 : Board) (r : PyRandom) : Bool × WSt :=
  warnsLoop famQ n variation prefs 1 (n * n - 1) (sx, sy)
    { board := b0.set sx sy 0, path := [(sx, sy)], rng := r }

/-- The sample taken by `_get_path_hash`: `sample_size = min(100, len(path)//2)`,
then `path[:ss]` and `path[-ss:]`.  Note that for `ss = 0` Python's `path[-0:]`
is the whole list. -/
def pathSample (p : List Pos) : List Pos × List Pos :=
  let ss := min 100 (p.length / 2)
  (p.take ss, if ss = 0 then p else p.drop (p.length - ss))

/-- `_get_path_hash`: Python stringifies the two slices and hashes the
concatenation; the string determines and is determined by the slice pair, so
the built-in hash is modelled as an abstract function `hashF` of the pair. -/
def getPathHash (hashF : List Pos × List Pos → Int) (p : List Pos) : Int :=
  hashF (pathSample p)

/-- One entry of `self.variation_stats` (`variation_info` in the source);
the wall-clock timestamp and the per-move diagnostic trace are omitted. -/
structure AttemptRecord where
  attempt : Nat
  variationType : Nat
  randomSeed : Int
  movePreferences : List Nat
  startPosition : Pos
  successful : Bool
  pathLength : Nat
  deriving DecidableEq, Repr

/-- The orchestrator's mutable state: board, path, the global random
generator, `self.variation_stats`, and the `attempted_paths` hash set
(modelled as a duplicate-free list; only membership is ever queried). -/
structure OrchState where
  board : Board
  path : List Pos
  rng : PyRandom
  stats : List AttemptRecord
  attempted : List Int

/-- `set.add`: adding an already-present hash leaves the set unchanged. -/
def addHash (l : List Int) (h : Int) : List Int := if h ∈ l then l else l ++ [h]

/-- The `for attempt in range(max_attempts)` loop of
`solve_with_multiple_warnsdorff_attempts`: `i` is the current attempt index,
`rem` the remaining budget.  Each iteration selects `variation = i % 3`,
reseeds the generator with `i + size * 1000`, resets board and path, draws a
fresh preference permutation, runs one Warnsdorff attempt, appends the attempt
record, and then either returns on a novel success, or records the attempt's
path hash (when the path is nonempty) and continues. -/
def orchLoop (famQ : Int → Nat → PyFloat) (famPerm : Int → Nat → List Nat × Nat)
    (hashF : List Pos × List Pos → Int) (n : Nat) (sx sy : Int) :
    Nat → Nat → OrchState → Bool × OrchState
  | _, 0, st => (false, st)
  | i, rem + 1, st =>
    let variation := i % 3
    let seed : Int := (i : Int) + (n : Int) * 1000
    let pr := pyShuffle famPerm (pySeed seed)
    let res := solveVariation famQ n sx sy variation pr.1 emptyBoard pr.2
    let st2 : OrchState :=
      { board := res.2.board, path := res.2.path, rng := res.2.rng,
        stats := st.stats ++
          [{ attempt := i + 1, variationType := variation, randomSeed := seed,
             movePreferences := pr.1, startPosition := (sx, sy),
             successful := res.1, pathLength := res.2.path.length }],
        attempted := st.attempted }
    if res.1 ∧ getPathHash hashF res.2.path ∉ st2.attempted then (true, st2)
    else
      orchLoop famQ famPerm hashF n sx sy (i + 1) rem
        { st2 with
          attempted :=
            if 0 < res.2.path.length then
              addHash st2.attempted (getPathHash hashF res.2.path)
            else st2.attempted }

/-- `solve_with_multiple_warnsdorff_attempts(start_x, start_y, max_attempts)`:
clears the statistics and runs the attempt loop on the instance's current
board, path and random-generator state. -/
def orchestrate (famQ : Int → Nat → PyFloat) (famPerm : Int → Nat → List Nat × Nat)
    (hashF : List Pos × List Pos → Int) (n : Nat) (sx sy : Int)
    (maxAttempts : Nat) (b0 : Board) (p0 : List Pos) (r0 : PyRandom) :
    Bool × OrchState :=
  orchLoop famQ famPerm hashF n sx sy 0 maxAttempts
    { board := b0, path := p0, rng := r0, stats := [], attempted := [] }

/-- A frame of the explicit backtracking stack:
`(move_count, curr_x, curr_y, i)` as pushed by `solve`. -/
abbrev Frame := Nat × Int × Int × Nat

/-- The backtracking solver's state; the head of `stack` is the top
(`stack[-1]` in Python). -/
structure BTState where
  board : Board
  path : List Pos
  stack : List Frame

/-- The inner `while i < 8 and not found_valid_move` scan of `solve`: starting
at move index `i` with `k` indices left to try, return the first valid move
index together with its target, or `none` when all remaining are invalid. -/
def scanMoves (n : Nat) (b : Board) (x y : Int) : Nat → Nat → Option (Nat × Int × Int)
  | _, 0 => none
  | i, k + 1 =>
    let nx := x + movesX.getD i 0
    let ny := y + movesY.getD i 0
    if isValidMove n b nx ny then some (i, nx, ny) else scanMoves n b x y (i + 1) k

/-- The scan of the 8 moves from the stored cursor `i` to the end. -/
def findValidFrom (n : Nat) (b : Board) (x y : Int) (i : Nat) : Option (Nat × Int × Int) :=
  scanMoves n b x y i (8 - i)

/-- One iteration of the `while stack:` loop of `solve`.  `Sum.inl` is a
return from the function (`True` with the current board and path, or `False`
after the final full reset); `Sum.inr` is the state at the next loop test. -/
def btStep (n : Nat) (s : BTState) : (Bool × Board × List Pos) ⊕ BTState :=
  match s.stack with
  | [] => Sum.inl (false, emptyBoard, [])
  | (mc, cx, cy, i) :: rest =>
    if mc = n * n then Sum.inl (true, s.board, s.path)
    else
      match findValidFrom n s.board cx cy i with
      | some (j, nx, ny) =>
        Sum.inr
          { board := s.board.set nx ny (mc : Int),
            path := s.path ++ [(nx, ny)],
            stack := (mc + 1, nx, ny, 0) :: (mc, cx, cy, j + 1) :: rest }
      | none =>
        match rest with
        | [] => Sum.inr { board := s.board, path := s.path, stack := [] }
        | _ :: _ =>
          Sum.inr
            { board := s.board.set (s.path.getLastD (0, 0)).1
                (s.path.getLastD (0, 0)).2 (-1),
              path := s.path.dropLast,
              stack := rest }

/-- Iterate `btStep` for at most `fuel` loop iterations. -/
def btRun (n : Nat) : Nat → BTState → (Bool × Board × List Pos) ⊕ BTState
  | 0, s => Sum.inr s
  | fuel + 1, s =>
    match btStep n s with
    | Sum.inl r => Sum.inl r
    | Sum.inr s2 => btRun n fuel s2

/-- The state of `solve(start_x, start_y)` at the first loop test. -/
def btInit (n : Nat) (sx sy : Int) : BTState :=
  { board := emptyBoard.set sx sy 0, path := [(sx, sy)], stack := [(1, sx, sy, 0)] }

/-- An upper bound (one more than the loop-measure of the initial state) on the
number of iterations the `while stack:` loop of `solve` can perform. -/
def fuelBound (n : Nat) : Nat := 8 * 9 ^ (n * n) + 2

/-- `solve(start_x, start_y)`: run the iterative backtracking loop; `some`
carries the returned Boolean with the final board and path.  The fuel is an
artefact of the embedding; the termination theorem shows it is never
exhausted. -/
def solve (n : Nat) (sx sy : Int) : Option (Bool × Board × List Pos) :=
  match btRun n (fuelBound n) (btInit n sx sy) with
  | Sum.inl r => some r
  | Sum.inr _ => none

/-! ### Specification-side notions -/

/-- A position is inside the `n × n` board. -/
def inB (n : Nat) (c : Pos) : Prop :=
  0 ≤ c.1 ∧ c.1 < (n : Int) ∧ 0 ≤ c.2 ∧ c.2 < (n : Int)

instance (n : Nat) (c : Pos) : Decidable (inB n c) :=
  inferInstanceAs (Decidable (_ ∧ _ ∧ _ ∧ _))

/-- The 8 canonical knight offsets, as the componentwise zip of `moves_x` and
`moves_y`. -/
def knightOffsets : List Pos := movesX.zip movesY

/-- `b` is one knight move away from `a`. -/
def knightStep (a b : Pos) : Prop := (b.1 - a.1, b.2 - a.2) ∈ knightOffsets

instance (a b : Pos) : Decidable (knightStep a b) :=
  inferInstanceAs (Decidable (_ ∈ _))

/-- Consecutive positions of the list are knight moves. -/
def PathChain (p : List Pos) : Prop :=
  ∀ j, j + 1 < p.length → knightStep (p.getD j (0, 0)) (p.getD (j + 1) (0, 0))

/-- A knight's tour of the `n × n` board starting at `start`: `n²` pairwise
distinct in-bounds cells, consecutive ones a knight move apart. -/
def IsKnightTour (n : Nat) (start : Pos) (T : List Pos) : Prop :=
  T.length = n * n ∧ T.getD 0 (0, 0) = start ∧ (∀ c ∈ T, inB n c) ∧
    T.Nodup ∧ PathChain T

/-- Every in-bounds cell occurs in the list. -/
def coversBoard (n : Nat) (T : List Pos) : Prop := ∀ c, inB n c → c ∈ T

/-- The board/path consistency invariant: the `j`-th path cell stores order
`j`, and any cell storing a value other than the sentinel `-1` is a path
cell. -/
def OrderInv (n : Nat) (b : Board) (p : List Pos) : Prop :=
  (∀ j, j < p.length → b (p.getD j (0, 0)).1 (p.getD j (0, 0)).2 = (j : Int)) ∧
  (∀ x y, b x y ≠ -1 → ∃ j, j < p.length ∧ p.getD j (0, 0) = (x, y))

/-! ### Basic lemmas about the board and the invariant -/

theorem Board.set_same (b : Board) (x y v : Int) : (b.set x y v) x y = v := by
  simp [Board.set]

theorem Board.set_other (b : Board) (x y v i j : Int) (h : ¬(i = x ∧ j = y)) :
    (b.set x y v) i j = b i j := by
  simp only [Board.set, if_neg h]

theorem isValidMove_iff (n : Nat) (b : Board) (x y : Int) :
    isValidMove n b x y = true ↔ inB n (x, y) ∧ b x y = -1 := by
  simp [isValidMove, inB, and_assoc]

theorem OrderInv_nodup {n : Nat} {b : Board} {p : List Pos}
    (h : OrderInv n b p) : p.Nodup := by
  rcases h with ⟨h1, -⟩
  rw [List.nodup_iff_injective_get]
  intro i j hij
  have hi := h1 i i.isLt
  have hj := h1 j j.isLt
  have hgi : p.getD (i : Nat) (0, 0) = p.get i := List.getD_eq_get _ _ _
  have hgj : p.getD (j : Nat) (0, 0) = p.get j := List.getD_eq_get _ _ _
  rw [hgi] at hi
  rw [hgj] at hj
  rw [hij] at hi
  have : ((i : Nat) : Int) = ((j : Nat) : Int) := by rw [hi] at hj; exact hj.symm ▸ rfl
  exact Fin.ext (by exact_mod_cast this)

theorem OrderInv_place {n : Nat} {b : Board} {p : List Pos} {c : Pos}
    (h : OrderInv n b p) (hc : b c.1 c.2 = -1) :
    OrderInv n (b.set c.1 c.2 (p.length : Int)) (p ++ [c]) := by
  rcases h with ⟨h1, h2⟩
  constructor
  · intro j hj
    rw [List.length_append, List.length_singleton] at hj
    rcases Nat.lt_succ_iff_lt_or_eq.mp hj with hlt | heq
    · have hcell : (p ++ [c]).getD j (0, 0) = p.getD j (0, 0) := by
        rw [List.getD_append _ _ _ _ hlt]
      rw [hcell]
      have hne : ¬((p.getD j (0, 0)).1 = c.1 ∧ (p.getD j (0, 0)).2 = c.2) := by
        intro hand
        have heqc : p.getD j (0, 0) = c := Prod.ext hand.1 hand.2
        have hval := h1 j hlt
        rw [heqc] at hval
        have : ((j : Nat) : Int) = -1 := by rw [← hval]; exact hc
        omega
      rw [Board.set_other _ _ _ _ _ _ hne]
      exact h1 j hlt
    · subst heq
      have hcell : (p ++ [c]).getD p.length (0, 0) = c := by
        simp
      rw [hcell, Board.set_same]
  · intro x y hxy
    by_cases hc2 : x = c.1 ∧ y = c.2
    · refine ⟨p.length, by simp, ?_⟩
      simp [Prod.ext_iff, hc2.1.symm, hc2.2.symm]
    · rw [Board.set_other _ _ _ _ _ _ hc2] at hxy
      rcases h2 x y hxy with ⟨j, hj, hcell⟩
      exact ⟨j, by simp [List.length_append]; omega,
        by rw [List.getD_append _ _ _ _ hj]; exact hcell⟩

theorem OrderInv_unplace {n : Nat} {b : Board} {p : List Pos} {c : Pos}
    (h : OrderInv n b (p ++ [c])) :
    OrderInv n (b.set c.1 c.2 (-1)) p := by
  rcases h with ⟨h1, h2⟩
  have hlen : (p ++ [c]).length = p.length + 1 := by simp
  constructor
  · intro j hj
    have hj2 : j < (p ++ [c]).length := by omega
    have hcell : (p ++ [c]).getD j (0, 0) = p.getD j (0, 0) :=
      List.getD_append _ _ _ _ hj
    have hval := h1 j hj2
    rw [hcell] at hval
    have hclast : (p ++ [c]).getD p.length (0, 0) = c := by simp
    have hcval := h1 p.length (by omega)
    rw [hclast] at hcval
    have hne : ¬((p.getD j (0, 0)).1 = c.1 ∧ (p.getD j (0, 0)).2 = c.2) := by
      intro hand
      have heqc : p.getD j (0, 0) = c := Prod.ext hand.1 hand.2
      rw [heqc] at hval
      rw [hval] at hcval
      have : j = p.length := by exact_mod_cast hcval
      omega
    rw [Board.set_other _ _ _ _ _ _ hne]
    exact hval
  · intro x y hxy
    by_cases hc2 : x = c.1 ∧ y = c.2
    · exfalso
      apply hxy
      rw [hc2.1, hc2.2, Board.set_same]
    · rw [Board.set_other _ _ _ _ _ _ hc2] at hxy
      rcases h2 x y hxy with ⟨j, hj, hcell⟩
      rcases Nat.lt_succ_iff_lt_or_eq.mp (hlen ▸ hj) with hlt | heq
      · exact ⟨j, hlt, by rw [List.getD_append _ _ _ _ hlt] at hcell; exact hcell⟩
      · exfalso
        subst heq
        have : (p ++ [c]).getD p.length (0, 0) = c := by simp
        rw [this] at hcell
        exact hc2 ⟨by rw [hcell], by rw [hcell]⟩

/-- Pigeonhole: `n²` pairwise distinct in-bounds cells cover the board. -/
theorem covers_of_nodup (n : Nat) (p : List Pos) (hnd : p.Nodup)
    (hin : ∀ c ∈ p, inB n c) (hlen : p.length = n * n) : coversBoard n p := by
  intro c hc
  have hgrid : ∀ d : Pos, inB n d ↔ d ∈ (Finset.Ico (0 : Int) (n : Int)) ×ˢ (Finset.Ico (0 : Int) (n : Int)) := by
    intro d
    simp [inB, Finset.mem_product, Finset.mem_Ico, and_assoc]
  have hsub : p.toFinset ⊆ (Finset.Ico (0 : Int) (n : Int)) ×ˢ (Finset.Ico (0 : Int) (n : Int)) := by
    intro d hd
    exact (hgrid d).mp (hin d (List.mem_toFinset.mp hd))
  have hcardgrid : ((Finset.Ico (0 : Int) (n : Int)) ×ˢ (Finset.Ico (0 : Int) (n : Int))).card = n * n := by
    rw [Finset.card_product]
    simp [Int.card_Ico]
  have hcardp : p.toFinset.card = n * n := by
    rw [List.toFinset_card_of_nodup hnd, hlen]
  have heq : p.toFinset = (Finset.Ico (0 : Int) (n : Int)) ×ˢ (Finset.Ico (0 : Int) (n : Int)) :=
    Finset.eq_of_subset_of_card_le hsub (by rw [hcardgrid, hcardp])
  have hcmem : c ∈ p.toFinset := by rw [heq]; exact (hgrid c).mp hc
  exact List.mem_toFinset.mp hcmem

/-! ### The candidate list, recursively -/

/-- Recursive form of the candidate-collection fold of
`_get_next_move_warnsdorff_generic_detailed` (same traversal, written as a
recursion for proofs). -/
def scoredCands (famQ : Int → Nat → PyFloat) (n : Nat) (b : Board) (x y : Int)
    (variation : Nat) : List Nat → PyRandom → List ((PyFloat × PyFloat) × Pos) × PyRandom
  | [], r => ([], r)
  | i :: rest, r =>
    let nx := x + movesX.getD i 0
    let ny := y + movesY.getD i 0
    if isValidMove n b nx ny then
      let res := scoredCands famQ n b x y variation rest ⟨r.sd, r.pos + 1⟩
      ((scoringFunc n variation nx ny (countValidMoves n b nx ny)
          ((famQ r.sd r.pos).mul tenth), (nx, ny)) :: res.1, res.2)
    else scoredCands famQ n b x y variation rest r

theorem collectCands_go (famQ : Int → Nat → PyFloat) (n : Nat) (b : Board)
    (x y : Int) (variation : Nat) :
    ∀ (prefs : List Nat) (acc : List ((PyFloat × PyFloat) × Pos)) (r : PyRandom),
    prefs.foldl
      (fun acc i =>
        let nx := x + movesX.getD i 0
        let ny := y + movesY.getD i 0
        if isValidMove n b nx ny then
          let deg := countValidMoves n b nx ny
          let rf := (famQ acc.2.sd acc.2.pos).mul tenth
          (acc.1 ++ [(scoringFunc n variation nx ny deg rf, (nx, ny))],
            ⟨acc.2.sd, acc.2.pos + 1⟩)
        else acc)
      (acc, r)
    = (acc ++ (scoredCands famQ n b x y variation prefs r).1,
       (scoredCands famQ n b x y variation prefs r).2) := by
  intro prefs
  induction prefs with
  | nil => intro acc r; simp [scoredCands]
  | cons i rest ih =>
    intro acc r
    by_cases hv : isValidMove n b (x + movesX.getD i 0) (y + movesY.getD i 0) = true
    · simp only [List.foldl_cons, scoredCands, hv, if_true]
      rw [ih]
      simp
    · simp only [List.foldl_cons, scoredCands, Bool.not_eq_true] at *
      simp only [hv, if_false, Bool.false_eq_true]
      rw [ih]

theorem collectCands_eq (famQ : Int → Nat → PyFloat) (n : Nat) (b : Board)
    (x y : Int) (prefs : List Nat) (variation : Nat) (r : PyRandom) :
    collectCands famQ n b x y prefs variation r
      = scoredCands famQ n b x y variation prefs r := by
  unfold collectCands
  rw [collectCands_go]
  simp

/-- Every collected candidate comes from a preference index whose target it
is, is a valid move, and is scored by the scoring function at its degree with
some tie-break drawn from the stream. -/
theorem scoredCands_mem (famQ : Int → Nat → PyFloat) (n : Nat) (b : Board)
    (x y : Int) (variation : Nat) :
    ∀ (prefs : List Nat) (r : PyRandom) (e : (PyFloat × PyFloat) × Pos),
    e ∈ (scoredCands famQ n b x y variation prefs r).1 →
    ∃ i ∈ prefs, e.2 = (x + movesX.getD i 0, y + movesY.getD i 0) ∧
      isValidMove n b e.2.1 e.2.2 = true ∧
      ∃ k, e.1 = scoringFunc n variation e.2.1 e.2.2
        (countValidMoves n b e.2.1 e.2.2) ((famQ r.sd k).mul tenth) := by
  intro prefs
  induction prefs with
  | nil => intro r e he; simp [scoredCands] at he
  | cons i rest ih =>
    intro r e he
    by_cases hv : isValidMove n b (x + movesX.getD i 0) (y + movesY.getD i 0) = true
    · simp only [scoredCands, hv, if_true, List.mem_cons] at he
      rcases he with he | he
      · refine ⟨i, List.mem_cons_self i rest, ?_⟩
        subst he
        exact ⟨rfl, hv, r.pos, rfl⟩
      · rcases ih ⟨r.sd, r.pos + 1⟩ e he with ⟨i2, hi2, h2⟩
        exact ⟨i2, List.mem_cons_of_mem i hi2, h2⟩
    · simp only [scoredCands, Bool.not_eq_true] at *
      rw [hv] at he
      simp only [Bool.false_eq_true, if_false] at he
      rcases ih r e he with ⟨i2, hi2, h2⟩
      exact ⟨i2, List.mem_cons_of_mem i hi2, h2⟩

/-- The candidate list is empty exactly when no preference index yields a
valid move. -/
theorem scoredCands_empty_iff (famQ : Int → Nat → PyFloat) (n : Nat) (b : Board)
    (x y : Int) (variation : Nat) :
    ∀ (prefs : List Nat) (r : PyRandom),
    (scoredCands famQ n b x y variation prefs r).1 = [] ↔
      ∀ i ∈ prefs, ¬ isValidMove n b (x + movesX.getD i 0) (y + movesY.getD i 0) = true := by
  intro prefs
  induction prefs with
  | nil => intro r; simp [scoredCands]
  | cons i rest ih =>
    intro r
    by_cases hv : isValidMove n b (x + movesX.getD i 0) (y + movesY.getD i 0) = true
    · simp only [scoredCands, hv, if_true]
      constructor
      · intro h; exact absurd h (List.cons_ne_nil _ _)
      · intro h; exact absurd hv (h i (List.mem_cons_self i rest))
    · simp only [scoredCands, Bool.not_eq_true] at *
      rw [hv]
      simp only [Bool.false_eq_true, if_false]
      rw [ih r]
      constructor
      · intro h j hj
        rcases List.mem_cons.mp hj with rfl | hj2
        · exact hv
        · exact h j hj2
      · intro h j hj
        exact h j (List.mem_cons_of_mem i hj)

/-! ### PyFloat order, via the rational value -/

theorem PyFloat.lt_iff {a b : PyFloat} (ha : 0 < a.den) (hb : 0 < b.den) :
    PyFloat.lt a b ↔ a.toRat < b.toRat := by
  unfold PyFloat.lt PyFloat.toRat
  rw [div_lt_div_iff (by exact_mod_cast ha) (by exact_mod_cast hb)]
  constructor
  · intro h; exact_mod_cast h
  · intro h; exact_mod_cast h

theorem PyFloat.eqv_iff {a b : PyFloat} (ha : 0 < a.den) (hb : 0 < b.den) :
    PyFloat.eqv a b ↔ a.toRat = b.toRat := by
  unfold PyFloat.eqv PyFloat.toRat
  rw [div_eq_div_iff (by exact_mod_cast (by omega : ¬ a.den = 0))
    (by exact_mod_cast (by omega : ¬ b.den = 0))]
  constructor
  · intro h; exact_mod_cast h
  · intro h; exact_mod_cast h

/-- A score pair with positive denominators. -/
def PosDen (s : PyFloat × PyFloat) : Prop := 0 < s.1.den ∧ 0 < s.2.den

/-- Lexicographic order on the rational values of a score pair. -/
def scoreValLt (s t : PyFloat × PyFloat) : Prop :=
  s.1.toRat < t.1.toRat ∨ (s.1.toRat = t.1.toRat ∧ s.2.toRat < t.2.toRat)

theorem scoreLt_iff {s t : PyFloat × PyFloat} (hs : PosDen s) (ht : PosDen t) :
    scoreLt s t = true ↔ scoreValLt s t := by
  unfold scoreLt scoreValLt
  rw [decide_eq_true_eq, PyFloat.lt_iff hs.1 ht.1, PyFloat.eqv_iff hs.1 ht.1,
    PyFloat.lt_iff hs.2 ht.2]

theorem scoreValLt_trans {a b c : PyFloat × PyFloat} :
    scoreValLt a b → scoreValLt b c → scoreValLt a c := by
  unfold scoreValLt
  rintro (h1 | ⟨h1, h2⟩) (h3 | ⟨h3, h4⟩)
  · exact Or.inl (lt_trans h1 h3)
  · exact Or.inl (h3 ▸ h1)
  · exact Or.inl (h1 ▸ h3)
  · exact Or.inr ⟨h1.trans h3, lt_trans h2 h4⟩

theorem scoreValLt_total (a b : PyFloat × PyFloat) :
    scoreValLt a b ∨ scoreValLt b a ∨
      (a.1.toRat = b.1.toRat ∧ a.2.toRat = b.2.toRat) := by
  unfold scoreValLt
  rcases lt_trichotomy a.1.toRat b.1.toRat with h | h | h
  · exact Or.inl (Or.inl h)
  · rcases lt_trichotomy a.2.toRat b.2.toRat with h2 | h2 | h2
    · exact Or.inl (Or.inr ⟨h, h2⟩)
    · exact Or.inr (Or.inr ⟨h, h2⟩)
    · exact Or.inr (Or.inl (Or.inr ⟨h.symm, h2⟩))
  · exact Or.inr (Or.inl (Or.inl h))

theorem scoreValLt_congr {a b c : PyFloat × PyFloat}
    (h : a.1.toRat = b.1.toRat ∧ a.2.toRat = b.2.toRat) :
    scoreValLt a c ↔ scoreValLt b c := by
  unfold scoreValLt
  rw [h.1, h.2]

/-! ### pickBest: membership and minimality -/

/-- The selection fold of `pickBest`. -/
def bestFold (a : (PyFloat × PyFloat) × Pos) (bs : List ((PyFloat × PyFloat) × Pos)) :
    (PyFloat × PyFloat) × Pos :=
  bs.foldl (fun best c => if scoreLt c.1 best.1 then c else best) a

theorem bestFold_cons (a b : (PyFloat × PyFloat) × Pos)
    (bs : List ((PyFloat × PyFloat) × Pos)) :
    bestFold a (b :: bs) = bestFold (if scoreLt b.1 a.1 then b else a) bs := rfl

theorem bestFold_mem : ∀ (bs : List ((PyFloat × PyFloat) × Pos)) (a),
    bestFold a bs ∈ a :: bs := by
  intro bs
  induction bs with
  | nil => intro a; simp [bestFold]
  | cons b bs ih =>
    intro a
    rw [bestFold_cons]
    by_cases hlt : scoreLt b.1 a.1 = true
    · rw [if_pos hlt]
      rcases List.mem_cons.mp (ih b) with h | h
      · exact List.mem_cons.mpr (Or.inr (List.mem_cons.mpr (Or.inl h)))
      · exact List.mem_cons.mpr (Or.inr (List.mem_cons.mpr (Or.inr h)))
    · rw [if_neg hlt]
      rcases List.mem_cons.mp (ih a) with h | h
      · exact List.mem_cons.mpr (Or.inl h)
      · exact List.mem_cons.mpr (Or.inr (List.mem_cons.mpr (Or.inr h)))

theorem bestFold_min : ∀ (bs : List ((PyFloat × PyFloat) × Pos)) (a),
    PosDen a.1 → (∀ e ∈ bs, PosDen e.1) →
    ∀ e ∈ a :: bs, ¬ scoreValLt e.1 (bestFold a bs).1 := by
  intro bs
  induction bs with
  | nil =>
    intro a _ _ e he
    rcases List.mem_cons.mp he with rfl | he2
    · unfold bestFold
      simp only [List.foldl_nil]
      unfold scoreValLt
      rintro (h | ⟨h1, h2⟩)
      · exact lt_irrefl _ h
      · exact lt_irrefl _ h2
    · simp at he2
  | cons b bs ih =>
    intro a hpa hpd e he
    have hpb : PosDen b.1 := hpd b (List.mem_cons_self _ _)
    have hpd2 : ∀ x ∈ bs, PosDen x.1 := fun x hx => hpd x (List.mem_cons_of_mem _ hx)
    rw [bestFold_cons]
    by_cases hlt : scoreLt b.1 a.1 = true
    · rw [if_pos hlt]
      have ihb := ih b hpb hpd2
      have hblta : scoreValLt b.1 a.1 := (scoreLt_iff hpb hpa).mp hlt
      rcases List.mem_cons.mp he with rfl | he2
      · intro hcon
        exact ihb b (List.mem_cons_self _ _) (scoreValLt_trans hblta hcon)
      · rcases List.mem_cons.mp he2 with rfl | he3
        · exact ihb e (List.mem_cons_self _ _)
        · exact ihb e (List.mem_cons_of_mem _ he3)
    · rw [if_neg hlt]
      have iha := ih a hpa hpd2
      have hnba : ¬ scoreValLt b.1 a.1 := by
        intro hq
        rw [← scoreLt_iff hpb hpa] at hq
        exact hlt hq
      rcases List.mem_cons.mp he with rfl | he2
      · exact iha e (List.mem_cons_self _ _)
      · rcases List.mem_cons.mp he2 with rfl | he3
        · intro hcon
          rcases scoreValLt_total a.1 e.1 with h1 | h1 | h1
          · exact iha a (List.mem_cons_self _ _) (scoreValLt_trans h1 hcon)
          · exact hnba h1
          · exact iha a (List.mem_cons_self _ _)
              ((scoreValLt_congr ⟨h1.1, h1.2⟩).mpr hcon)
        · exact iha e (List.mem_cons_of_mem _ he3)

theorem pickBest_mem (l : List ((PyFloat × PyFloat) × Pos)) (m)
    (h : pickBest l = some m) : m ∈ l := by
  match l with
  | [] => simp [pickBest] at h
  | a :: as =>
    simp only [pickBest, Option.some_inj] at h
    subst h
    exact bestFold_mem as a

theorem pickBest_min (l : List ((PyFloat × PyFloat) × Pos)) (m)
    (hpd : ∀ e ∈ l, PosDen e.1) (h : pickBest l = some m) :
    ∀ e ∈ l, ¬ scoreValLt e.1 m.1 := by
  match l with
  | [] => simp [pickBest] at h
  | a :: as =>
    simp only [pickBest, Option.some_inj] at h
    subst h
    exact bestFold_min as a (hpd a (List.mem_cons_self _ _))
      (fun e he => hpd e (List.mem_cons_of_mem _ he))

/-! ### getNextMove -/

theorem moves_mem_offsets (i : Nat) (h : i < 8) :
    ((movesX.getD i 0, movesY.getD i 0) : Pos) ∈ knightOffsets := by
  interval_cases i <;> decide

theorem getNextMove_some (famQ : Int → Nat → PyFloat) (n : Nat) (b : Board)
    (x y : Int) (prefs : List Nat) (variation : Nat) (r : PyRandom)
    (nc : Pos) (r2 : PyRandom)
    (h : getNextMove famQ n b x y prefs variation r = (some nc, r2)) :
    ∃ i ∈ prefs, nc = (x + movesX.getD i 0, y + movesY.getD i 0) ∧
      isValidMove n b nc.1 nc.2 = true := by
  unfold getNextMove at h
  rw [collectCands_eq] at h
  rcases hpb : pickBest (scoredCands famQ n b x y variation prefs r).1 with - | m
  · simp only [hpb, Prod.mk.injEq] at h
    exact absurd h.1 (by simp)
  · simp only [hpb, Prod.mk.injEq, Option.some_inj] at h
    have hmem := pickBest_mem _ _ hpb
    rcases scoredCands_mem famQ n b x y variation prefs r m hmem with ⟨i, hi, htgt, hval, -⟩
    exact ⟨i, hi, by rw [← h.1, htgt], by rw [← h.1]; exact hval⟩

theorem getNextMove_none_iff (famQ : Int → Nat → PyFloat) (n : Nat) (b : Board)
    (x y : Int) (prefs : List Nat) (variation : Nat) (r : PyRandom) :
    (getNextMove famQ n b x y prefs variation r).1 = none ↔
      ∀ i ∈ prefs, ¬ isValidMove n b (x + movesX.getD i 0) (y + movesY.getD i 0) = true := by
  unfold getNextMove
  rw [collectCands_eq]
  rcases hl : (scoredCands famQ n b x y variation prefs r).1 with - | ⟨m, ms⟩
  · simp only [pickBest]
    rw [← scoredCands_empty_iff famQ n b x y variation prefs r, hl]
    simp
  · simp only [pickBest]
    rw [← scoredCands_empty_iff famQ n b x y variation prefs r, hl]
    simp

/-! ### The single-attempt solver invariant -/

/-- The running invariant of a Warnsdorff attempt: nonempty path starting at
`start`, all cells in bounds, consecutive cells knight moves, and the board
consistent with the path. -/
def WInv (n : Nat) (start : Pos) (st : WSt) : Prop :=
  0 < st.path.length ∧ st.path.getD 0 (0, 0) = start ∧
    (∀ c ∈ st.path, inB n c) ∧ PathChain st.path ∧ OrderInv n st.board st.path

theorem OrderInv_not_mem {n : Nat} {b : Board} {p : List Pos} {c : Pos}
    (h : OrderInv n b p) (hc : b c.1 c.2 = -1) :
    ∀ j, j < p.length → p.getD j (0, 0) ≠ c := by
  intro j hj heq
  have := h.1 j hj
  rw [heq] at this
  rw [this] at hc
  omega

theorem PathChain_append {p : List Pos} {c : Pos} (hp : PathChain p)
    (hne : 0 < p.length)
    (hstep : knightStep (p.getD (p.length - 1) (0, 0)) c) :
    PathChain (p ++ [c]) := by
  intro j hj
  rw [List.length_append, List.length_singleton] at hj
  by_cases hlt : j + 1 < p.length
  · rw [List.getD_append _ _ _ _ (by omega), List.getD_append _ _ _ _ hlt]
    exact hp j hlt
  · have hj1 : j + 1 = p.length := by omega
    have hgj : (p ++ [c]).getD j (0, 0) = p.getD j (0, 0) :=
      List.getD_append _ _ _ _ (by omega)
    have hgj1 : (p ++ [c]).getD (j + 1) (0, 0) = c := by
      rw [hj1]
      simp
    rw [hgj, hgj1]
    have : j = p.length - 1 := by omega
    rw [this]
    exact hstep

/-- The main induction for one Warnsdorff attempt: the invariant is preserved,
and the returned flag is `true` exactly when all remaining iterations placed a
cell. -/
theorem warnsLoop_spec (famQ : Int → Nat → PyFloat) (n variation : Nat)
    (prefs : List Nat) (start : Pos) (hpref : ∀ i ∈ prefs, i < 8) :
    ∀ (rem mc : Nat) (st : WSt) (c : Pos),
    WInv n start st → st.path.length = mc → st.path.getD (mc - 1) (0, 0) = c →
    WInv n start (warnsLoop famQ n variation prefs mc rem c st).2 ∧
    ((warnsLoop famQ n variation prefs mc rem c st).1 = true →
      (warnsLoop famQ n variation prefs mc rem c st).2.path.length = mc + rem) ∧
    ((warnsLoop famQ n variation prefs mc rem c st).1 = false →
      (warnsLoop famQ n variation prefs mc rem c st).2.path.length < mc + rem) := by
  intro rem
  induction rem with
  | zero =>
    intro mc st c hinv hlen hc
    refine ⟨hinv, ?_, ?_⟩
    · intro _
      simp only [warnsLoop]
      omega
    · intro hfalse
      simp only [warnsLoop] at hfalse
      exact absurd hfalse (by decide)
  | succ rem ih =>
    intro mc st c hinv hlen hc
    rcases hg : getNextMove famQ n st.board c.1 c.2 prefs variation st.rng with ⟨og, r2⟩
    rcases og with - | nc
    · have hred : warnsLoop famQ n variation prefs mc (rem + 1) c st
          = (false, { st with rng := r2 }) := by
        simp only [warnsLoop, hg]
      rw [hred]
      refine ⟨?_, ?_, ?_⟩
      · exact hinv
      · intro hcon; simp at hcon
      · intro _
        simp only []
        omega
    · have hred : warnsLoop famQ n variation prefs mc (rem + 1) c st
          = warnsLoop famQ n variation prefs (mc + 1) rem nc
              { board := st.board.set nc.1 nc.2 (mc : Int),
                path := st.path ++ [nc], rng := r2 } := by
        simp only [warnsLoop, hg]
      rcases getNextMove_some famQ n st.board c.1 c.2 prefs variation st.rng nc r2 hg
        with ⟨i, hi, htgt, hval⟩
      rcases hinv with ⟨hlen0, hhead, hin, hchain, horder⟩
      rw [isValidMove_iff] at hval
      have hstep : knightStep c nc := by
        unfold knightStep
        rw [htgt]
        simp only [add_sub_cancel_left]
        exact moves_mem_offsets i (hpref i hi)
      have hinv2 : WInv n start
          { board := st.board.set nc.1 nc.2 (mc : Int),
            path := st.path ++ [nc], rng := r2 } := by
        refine ⟨?_, ?_, ?_, ?_, ?_⟩
        · simp only [List.length_append, List.length_singleton]; omega
        · rw [List.getD_append _ _ _ _ (by omega)]
          exact hhead
        · intro d hd
          rcases List.mem_append.mp hd with hd | hd
          · exact hin d hd
          · rw [List.mem_singleton.mp hd]
            exact hval.1
        · apply PathChain_append hchain hlen0
          rw [hlen, hc]
          exact hstep
        · have := OrderInv_place horder hval.2
          rw [hlen] at this
          exact this
      have hc2 : (st.path ++ [nc]).getD (mc + 1 - 1) (0, 0) = nc := by
        simp only [Nat.add_sub_cancel]
        rw [← hlen]
        simp
      have hlen2 : (st.path ++ [nc]).length = mc + 1 := by
        simp only [List.length_append, List.length_singleton]; omega
      have := ih (mc + 1)
        { board := st.board.set nc.1 nc.2 (mc : Int),
          path := st.path ++ [nc], rng := r2 } nc hinv2 hlen2 hc2
      rw [hred]
      refine ⟨this.1, ?_, ?_⟩
      · intro htrue
        have := this.2.1 htrue
        omega
      · intro hfalse
        have := this.2.2 hfalse
        omega

/-! ### Backtracking: structural and liveness invariants -/

/-- The structural invariant of the `while stack:` loop of `solve`: frames
correspond one-to-one to path entries (bottom first), frame `j` carries move
count `j + 1` and the `j`-th path cell, cursors stay within `0..8`, and the
path is a legal partial tour consistent with the board. -/
def StackOk (n : Nat) (start : Pos) (s : BTState) : Prop :=
  s.stack.length = s.path.length ∧
  0 < s.path.length ∧
  s.path.getD 0 (0, 0) = start ∧
  (∀ c ∈ s.path, inB n c) ∧
  PathChain s.path ∧
  OrderInv n s.board s.path ∧
  (∀ j, j < s.stack.length →
    (s.stack.reverse.getD j (0, 0, 0, 0)).1 = j + 1 ∧
    ((s.stack.reverse.getD j (0, 0, 0, 0)).2.1,
      (s.stack.reverse.getD j (0, 0, 0, 0)).2.2.1) = s.path.getD j (0, 0) ∧
    (s.stack.reverse.getD j (0, 0, 0, 0)).2.2.2 ≤ 8)

/-- The stored cursor of the depth-`j` frame (bottom = depth 0). -/
def cursorAt (s : BTState) (j : Nat) : Nat :=
  (s.stack.reverse.getD j (0, 0, 0, 0)).2.2.2

/-- `b` is reached from `a` by a knight move whose index is at least `cmin`. -/
def moveIdxGe (a b : Pos) (cmin : Nat) : Prop :=
  ∃ i, cmin ≤ i ∧ i < 8 ∧ b = (a.1 + movesX.getD i 0, a.2 + movesY.getD i 0)

/-- A tour `T` is still reachable by the search from state `s`: either the
current path is a prefix of `T` and `T`'s next move is not yet past the top
cursor, or `T` branches off the current path at some depth `d` through a move
not yet past that frame's cursor. -/
def LiveT (n : Nat) (s : BTState) (T : List Pos) : Prop :=
  (T.take s.path.length = s.path ∧
    (s.path.length = n * n ∨
      moveIdxGe (s.path.getD (s.path.length - 1) (0, 0))
        (T.getD s.path.length (0, 0)) (cursorAt s (s.path.length - 1)))) ∨
  (∃ d, 0 < d ∧ d < s.path.length ∧ T.take d = s.path.take d ∧
    T.getD d (0, 0) ≠ s.path.getD d (0, 0) ∧
    moveIdxGe (s.path.getD (d - 1) (0, 0)) (T.getD d (0, 0)) (cursorAt s (d - 1)))

/-- The full loop invariant of `solve`: with an empty stack no tour exists at
all; with a nonempty stack the structure holds and every tour is live. -/
def BTInv (n : Nat) (start : Pos) (s : BTState) : Prop :=
  (s.stack = [] → ∀ T, ¬ IsKnightTour n start T) ∧
  (s.stack ≠ [] → StackOk n start s ∧ ∀ T, IsKnightTour n start T → LiveT n s T)

/-! ### scanMoves characterisation -/

theorem scanMoves_some (n : Nat) (b : Board) (x y : Int) :
    ∀ (k i j : Nat) (nx ny : Int), scanMoves n b x y i k = some (j, nx, ny) →
    i ≤ j ∧ j < i + k ∧ nx = x + movesX.getD j 0 ∧ ny = y + movesY.getD j 0 ∧
    isValidMove n b nx ny = true ∧
    (∀ m, i ≤ m → m < j →
      ¬ isValidMove n b (x + movesX.getD m 0) (y + movesY.getD m 0) = true) := by
  intro k
  induction k with
  | zero => intro i j nx ny h; simp [scanMoves] at h
  | succ k ih =>
    intro i j nx ny h
    by_cases hv : isValidMove n b (x + movesX.getD i 0) (y + movesY.getD i 0) = true
    · simp only [scanMoves, hv, if_true, Option.some_inj, Prod.mk.injEq] at h
      rcases h with ⟨hji, hnx, hny⟩
      subst hji
      refine ⟨le_refl i, by omega, hnx.symm, hny.symm, ?_, ?_⟩
      · rw [hnx, hny] at hv
        exact hv
      · intro m hm1 hm2
        omega
    · rw [Bool.not_eq_true] at hv
      simp only [scanMoves, hv, Bool.false_eq_true, if_false] at h
      rcases ih (i + 1) j nx ny h with ⟨h1, h2, h3, h4, h5, h6⟩
      refine ⟨by omega, by omega, h3, h4, h5, ?_⟩
      intro m hm1 hm2
      rcases Nat.eq_or_lt_of_le hm1 with rfl | hm3
      · rw [hv]; simp
      · exact h6 m (by omega) hm2

theorem scanMoves_none (n : Nat) (b : Board) (x y : Int) :
    ∀ (k i : Nat), scanMoves n b x y i k = none →
    ∀ m, i ≤ m → m < i + k →
      ¬ isValidMove n b (x + movesX.getD m 0) (y + movesY.getD m 0) = true := by
  intro k
  induction k with
  | zero => intro i _ m hm1 hm2; omega
  | succ k ih =>
    intro i h m hm1 hm2
    by_cases hv : isValidMove n b (x + movesX.getD i 0) (y + movesY.getD i 0) = true
    · simp only [scanMoves, hv, if_true] at h
      exact Option.noConfusion h
    · rw [Bool.not_eq_true] at hv
      simp only [scanMoves, hv, Bool.false_eq_true, if_false] at h
      rcases Nat.eq_or_lt_of_le hm1 with rfl | hm3
      · rw [hv]; simp
      · exact ih (i + 1) h m (by omega) (by omega)

theorem findValidFrom_some (n : Nat) (b : Board) (x y : Int) (i j : Nat)
    (nx ny : Int) (hi : i ≤ 8)
    (h : findValidFrom n b x y i = some (j, nx, ny)) :
    i ≤ j ∧ j < 8 ∧ nx = x + movesX.getD j 0 ∧ ny = y + movesY.getD j 0 ∧
    isValidMove n b nx ny = true ∧
    (∀ m, i ≤ m → m < j →
      ¬ isValidMove n b (x + movesX.getD m 0) (y + movesY.getD m 0) = true) := by
  unfold findValidFrom at h
  rcases scanMoves_some n b x y (8 - i) i j nx ny h with ⟨h1, h2, h3, h4, h5, h6⟩
  exact ⟨h1, by omega, h3, h4, h5, h6⟩

theorem findValidFrom_none (n : Nat) (b : Board) (x y : Int) (i : Nat)
    (h : findValidFrom n b x y i = none) :
    ∀ m, i ≤ m → m < 8 →
      ¬ isValidMove n b (x + movesX.getD m 0) (y + movesY.getD m 0) = true := by
  unfold findValidFrom at h
  intro m hm1 hm2
  exact scanMoves_none n b x y (8 - i) i h m hm1 (by omega)

/-! ### List access helpers -/

theorem getD_concat {α : Type} (l : List α) (a d : α) : (l ++ [a]).getD l.length d = a := by
  rw [List.getD_append_right l [a] d l.length (le_refl _)]
  simp

theorem getD_take_lt (p : List Pos) (m j : Nat) (d : Pos) (h : j < m) :
    (p.take m).getD j d = p.getD j d := by
  rw [List.getD_eq_getD_get?, List.getD_eq_getD_get?, List.get?_eq_getElem?,
    List.get?_eq_getElem?, List.getElem?_take_of_lt h]

theorem getD_dropLast (p : List Pos) (j : Nat) (d : Pos) (h : j < p.length - 1) :
    p.dropLast.getD j d = p.getD j d := by
  rw [List.dropLast_eq_take]
  exact getD_take_lt p (p.length - 1) j d h

theorem dropLast_concat_getLastD {α : Type} :
    ∀ (p : List α) (d : α), p ≠ [] → p.dropLast ++ [p.getLastD d] = p := by
  intro p
  induction p with
  | nil => intro d h; exact absurd rfl h
  | cons a t ih =>
    intro d _
    rcases t with - | ⟨b, t2⟩
    · simp
    · have := ih d (List.cons_ne_nil b t2)
      simp only [List.dropLast_cons₂, List.cons_append]
      rw [show (a :: b :: t2).getLastD d = (b :: t2).getLastD d from rfl, this]

theorem take_append_le {α : Type} (l l2 : List α) (m : Nat) (h : m ≤ l.length) :
    (l ++ l2).take m = l.take m := by
  rw [List.take_append_eq_append_take, Nat.sub_eq_zero_of_le h]
  simp

theorem getD_mem (l : List Pos) (j : Nat) (d : Pos) (h : j < l.length) :
    l.getD j d ∈ l := by
  rw [List.getD_eq_getElem l d h]
  exact l.getElem_mem h

/-- Distinct path indices of a `Nodup` list hold distinct cells. -/
theorem nodup_getD_ne (T : List Pos) (hnd : T.Nodup) (j k : Nat)
    (hj : j < T.length) (hk : k < T.length) (hne : j ≠ k) :
    T.getD j (0, 0) ≠ T.getD k (0, 0) := by
  intro heq
  rw [List.getD_eq_get T (0, 0) hj, List.getD_eq_get T (0, 0) hk] at heq
  have h2 := List.nodup_iff_injective_get.mp hnd heq
  exact hne (congrArg Fin.val h2)

/-! ### Knight offsets helpers -/

theorem offsets_index (c : Pos) (hc : c ∈ knightOffsets) :
    ∃ i, i < 8 ∧ c = (movesX.getD i 0, movesY.getD i 0) := by
  fin_cases hc
  · exact ⟨0, by omega, rfl⟩
  · exact ⟨1, by omega, rfl⟩
  · exact ⟨2, by omega, rfl⟩
  · exact ⟨3, by omega, rfl⟩
  · exact ⟨4, by omega, rfl⟩
  · exact ⟨5, by omega, rfl⟩
  · exact ⟨6, by omega, rfl⟩
  · exact ⟨7, by omega, rfl⟩

theorem moves_ne : ∀ m, m < 8 → ∀ j, j < 8 → m ≠ j →
    ¬((movesX.getD m 0 = movesX.getD j 0) ∧ (movesY.getD m 0 = movesY.getD j 0)) := by
  decide

/-! ### Stack frame access -/

theorem stack_top (f : Frame) (rest : List Frame) :
    (f :: rest).reverse.getD rest.length (0, 0, 0, 0) = f := by
  rw [List.reverse_cons]
  have h : rest.reverse.length = rest.length := List.length_reverse rest
  rw [← h]
  exact getD_concat _ _ _

theorem stack_below (f : Frame) (rest : List Frame) (j : Nat) (h : j < rest.length) :
    (f :: rest).reverse.getD j (0, 0, 0, 0) = rest.reverse.getD j (0, 0, 0, 0) := by
  rw [List.reverse_cons]
  exact List.getD_append _ _ _ _ (by rw [List.length_reverse]; exact h)

/-! ### Tours through the current position -/

/-- If the current path is the length-`k` prefix of a tour `T` and `k < n²`,
the tour's next cell is a valid move on the current board. -/
theorem tour_next_valid (n : Nat) (start : Pos) (T : List Pos) (b : Board)
    (p : List Pos) (hT : IsKnightTour n start T) (horder : OrderInv n b p)
    (htake : T.take p.length = p) (hk : p.length < n * n) :
    isValidMove n b (T.getD p.length (0, 0)).1 (T.getD p.length (0, 0)).2 = true := by
  rcases hT with ⟨hTlen, -, hTin, hTnd, -⟩
  have hkT : p.length < T.length := by omega
  rw [isValidMove_iff]
  constructor
  · have := hTin (T.getD p.length (0, 0)) (getD_mem T p.length (0, 0) hkT)
    exact this
  · by_contra hbv
    rcases horder.2 _ _ hbv with ⟨j, hj, hcell⟩
    have hje : p.getD j (0, 0) = T.getD j (0, 0) := by
      rw [← htake]
      exact getD_take_lt T p.length j (0, 0) hj
    have : T.getD j (0, 0) = T.getD p.length (0, 0) := by
      rw [← hje, hcell]
    exact nodup_getD_ne T hTnd j p.length (by omega) hkT (by omega) this

/-- The step a tour takes out of its length-`k` prefix is a knight move with
some index. -/
theorem tour_next_idx (n : Nat) (start : Pos) (T : List Pos)
    (hT : IsKnightTour n start T) (k : Nat) (hk0 : 0 < k) (hk : k < n * n) :
    ∃ i, i < 8 ∧ T.getD k (0, 0)
      = ((T.getD (k - 1) (0, 0)).1 + movesX.getD i 0,
         (T.getD (k - 1) (0, 0)).2 + movesY.getD i 0) := by
  rcases hT with ⟨hTlen, -, -, -, hchain⟩
  have hstep := hchain (k - 1) (by omega)
  rw [show k - 1 + 1 = k from by omega] at hstep
  unfold knightStep at hstep
  rcases offsets_index _ hstep with ⟨i, hi8, hoff⟩
  refine ⟨i, hi8, ?_⟩
  rw [Prod.mk.injEq] at hoff
  apply Prod.ext
  · show (T.getD k (0, 0)).1 = (T.getD (k - 1) (0, 0)).1 + movesX.getD i 0
    omega
  · show (T.getD k (0, 0)).2 = (T.getD (k - 1) (0, 0)).2 + movesY.getD i 0
    omega

/-- `n²` bounds the length of any duplicate-free in-bounds path. -/
theorem path_length_le (n : Nat) (p : List Pos) (hnd : p.Nodup)
    (hin : ∀ c ∈ p, inB n c) : p.length ≤ n * n := by
  have hsub : p.toFinset ⊆ (Finset.Ico (0 : Int) (n : Int)) ×ˢ (Finset.Ico (0 : Int) (n : Int)) := by
    intro d hd
    have := hin d (List.mem_toFinset.mp hd)
    simp only [Finset.mem_product, Finset.mem_Ico]
    exact ⟨⟨this.1, this.2.1⟩, ⟨this.2.2.1, this.2.2.2⟩⟩
  have h1 := Finset.card_le_card hsub
  rw [List.toFinset_card_of_nodup hnd] at h1
  rw [Finset.card_product] at h1
  simp only [Int.card_Ico] at h1
  have h2 : (((n : Int) - 0).toNat) = n := by simp
  simp only [h2] at h1
  exact h1

/-- The top frame of a structurally sound stack carries the path length as its
move count and the last path cell as its position. -/
theorem top_frame_facts {n : Nat} {start : Pos} {board : Board} {path : List Pos}
    {f : Frame} {rest : List Frame}
    (hS : StackOk n start ⟨board, path, f :: rest⟩) :
    f.1 = path.length ∧ (f.2.1, f.2.2.1) = path.getD (path.length - 1) (0, 0) ∧
      f.2.2.2 ≤ 8 ∧ rest.length + 1 = path.length := by
  have hlen : rest.length + 1 = path.length := by
    have := hS.1
    simp only [List.length_cons] at this
    omega
  have h7 := hS.2.2.2.2.2.2 rest.length (by simp)
  rw [stack_top] at h7
  refine ⟨by omega, ?_, h7.2.2, hlen⟩
  rw [h7.2.1, show rest.length = path.length - 1 from by omega]

/-- When the top frame's scan from its stored cursor finds nothing and the
board is not complete, no tour extends the current path. -/
theorem prefix_clause_dead {n : Nat} {start : Pos} {board : Board} {path : List Pos}
    {mc : Nat} {cx cy : Int} {i0 : Nat} {rest : List Frame}
    (hS : StackOk n start ⟨board, path, (mc, cx, cy, i0) :: rest⟩)
    (hmc : mc ≠ n * n)
    (hfind : findValidFrom n board cx cy i0 = none)
    (T : List Pos) (hT : IsKnightTour n start T)
    (htake : T.take path.length = path)
    (hrest : path.length = n * n ∨
      moveIdxGe (path.getD (path.length - 1) (0, 0)) (T.getD path.length (0, 0)) i0) :
    False := by
  rcases top_frame_facts hS with ⟨hf1, hf2, hf3, hf4⟩
  simp only [] at hf1 hf2 hf3
  have hk : path.length = mc := hf1.symm
  rcases hrest with hdone | hge
  · exact hmc (by omega)
  · have hklt : path.length < n * n := by
      have := path_length_le n path (OrderInv_nodup hS.2.2.2.2.2.1) hS.2.2.2.1
      omega
    have hvalid := tour_next_valid n start T board path hT hS.2.2.2.2.2.1 htake hklt
    rcases hge with ⟨m, hm1, hm2, hmt⟩
    have hcxy : path.getD (path.length - 1) (0, 0) = (cx, cy) := by
      rw [← hf2]
    rw [hcxy] at hmt
    have := findValidFrom_none n board cx cy i0 hfind m hm1 hm2
    rw [hmt] at hvalid
    exact this hvalid

/-- Liveness plus a full-prefix hypothesis forces the prefix clause. -/
theorem live_prefix_case {n : Nat} {s : BTState} {T : List Pos}
    (hL : LiveT n s T) (htake : T.take s.path.length = s.path) :
    s.path.length = n * n ∨
      moveIdxGe (s.path.getD (s.path.length - 1) (0, 0))
        (T.getD s.path.length (0, 0)) (cursorAt s (s.path.length - 1)) := by
  rcases hL with ⟨-, h⟩ | ⟨d, hd0, hdk, -, hne, -⟩
  · exact h
  · exfalso
    apply hne
    rw [← htake]
    exact (getD_take_lt T s.path.length d (0, 0) hdk).symm

theorem take_concat_getD (T : List Pos) (k : Nat) (h : k < T.length) :
    T.take (k + 1) = T.take k ++ [T.getD k (0, 0)] := by
  rw [List.take_succ]
  congr 1
  rw [List.getD_eq_getElem T (0, 0) h, List.getElem?_eq_getElem h]
  rfl

theorem mkState_path (b : Board) (p : List Pos) (st : List Frame) :
    (BTState.mk b p st).path = p := rfl

theorem mkState_board (b : Board) (p : List Pos) (st : List Frame) :
    (BTState.mk b p st).board = b := rfl

theorem mkState_stack (b : Board) (p : List Pos) (st : List Frame) :
    (BTState.mk b p st).stack = st := rfl

theorem stack2_top (g f : Frame) (rest : List Frame) :
    (g :: f :: rest).reverse.getD (rest.length + 1) (0, 0, 0, 0) = g := by
  have := stack_top g (f :: rest)
  simp only [List.length_cons] at this
  exact this

theorem stack2_mid (g f : Frame) (rest : List Frame) :
    (g :: f :: rest).reverse.getD rest.length (0, 0, 0, 0) = f := by
  rw [stack_below g (f :: rest) rest.length (by simp)]
  exact stack_top f rest

theorem stack2_below (g f : Frame) (rest : List Frame) (j : Nat) (h : j < rest.length) :
    (g :: f :: rest).reverse.getD j (0, 0, 0, 0) = rest.reverse.getD j (0, 0, 0, 0) := by
  rw [stack_below g (f :: rest) j (by simp; omega), stack_below f rest j h]

/-- Popping the last frame proves that no tour exists at all. -/
theorem pop_empty_no_tour {n : Nat} {start : Pos} {board : Board} {path : List Pos}
    {mc : Nat} {cx cy : Int} {i0 : Nat}
    (hS : StackOk n start ⟨board, path, [(mc, cx, cy, i0)]⟩)
    (hLive : ∀ T, IsKnightTour n start T → LiveT n ⟨board, path, [(mc, cx, cy, i0)]⟩ T)
    (hmc : mc ≠ n * n)
    (hfind : findValidFrom n board cx cy i0 = none) :
    ∀ T, ¬ IsKnightTour n start T := by
  intro T hT
  have hk : path.length = 1 := by
    have := (top_frame_facts hS).2.2.2
    simp only [List.length_nil] at this
    omega
  rcases hLive T hT with ⟨htake, hrest⟩ | ⟨d, hd0, hdk, -, -, -⟩
  · simp only [mkState_path] at htake hrest
    have hcur : cursorAt ⟨board, path, [(mc, cx, cy, i0)]⟩ (path.length - 1) = i0 := by
      unfold cursorAt
      rw [hk]
      rfl
    rw [hcur] at hrest
    exact prefix_clause_dead hS hmc hfind T hT htake hrest
  · simp only [mkState_path] at hdk
    omega

/-- Popping to a nonempty stack preserves the structural invariant and
liveness. -/
theorem pop_preserves {n : Nat} {start : Pos} {board : Board} {path : List Pos}
    {mc : Nat} {cx cy : Int} {i0 : Nat} {f2 : Frame} {rrest : List Frame}
    (hS : StackOk n start ⟨board, path, (mc, cx, cy, i0) :: f2 :: rrest⟩)
    (hLive : ∀ T, IsKnightTour n start T →
      LiveT n ⟨board, path, (mc, cx, cy, i0) :: f2 :: rrest⟩ T)
    (hmc : mc ≠ n * n)
    (hfind : findValidFrom n board cx cy i0 = none) :
    StackOk n start
      ⟨board.set (path.getLastD (0, 0)).1 (path.getLastD (0, 0)).2 (-1),
        path.dropLast, f2 :: rrest⟩ ∧
    ∀ T, IsKnightTour n start T →
      LiveT n ⟨board.set (path.getLastD (0, 0)).1 (path.getLastD (0, 0)).2 (-1),
        path.dropLast, f2 :: rrest⟩ T := by
  have hk2 : rrest.length + 2 = path.length := by
    have := hS.1
    simp only [List.length_cons] at this
    omega
  have hkpos : 2 ≤ path.length := by omega
  have hpne : path ≠ [] := List.ne_nil_of_length_pos (by omega)
  have hsplit : path.dropLast ++ [path.getLastD (0, 0)] = path :=
    dropLast_concat_getLastD path (0, 0) hpne
  have hdllen : path.dropLast.length = path.length - 1 := by
    simp [List.length_dropLast]
  have hcur_s : ∀ j, j < rrest.length + 1 →
      cursorAt ⟨board, path, (mc, cx, cy, i0) :: f2 :: rrest⟩ j
        = cursorAt ⟨board.set (path.getLastD (0, 0)).1 (path.getLastD (0, 0)).2 (-1),
            path.dropLast, f2 :: rrest⟩ j := by
    intro j hj
    unfold cursorAt
    simp only []
    rw [stack_below (mc, cx, cy, i0) (f2 :: rrest) j (by simp only [List.length_cons]; omega)]
  constructor
  · rcases hS with ⟨hS1, hS2, hS3, hS4, hS5, hS6, hS7⟩
    unfold StackOk
    simp only [mkState_path, mkState_board, mkState_stack] at *
    refine ⟨?_, ?_, ?_, ?_, ?_, ?_, ?_⟩
    · simp only [List.length_cons]
      rw [hdllen]
      omega
    · rw [hdllen]
      omega
    · rw [getD_dropLast path 0 (0, 0) (by omega)]
      exact hS3
    · intro c hc
      exact hS4 c ((List.dropLast_sublist path).subset hc)
    · intro j hj
      rw [hdllen] at hj
      rw [getD_dropLast path j (0, 0) (by omega),
        getD_dropLast path (j + 1) (0, 0) (by omega)]
      exact hS5 j (by omega)
    · have h6 : OrderInv n board (path.dropLast ++ [path.getLastD (0, 0)]) := by
        rw [hsplit]
        exact hS6
      exact OrderInv_unplace h6
    · intro j hj
      simp only [List.length_cons] at hj
      have hj2 : j < rrest.length + 1 := by omega
      have heqf : ((f2 :: rrest).reverse.getD j (0, 0, 0, 0))
          = ((mc, cx, cy, i0) :: f2 :: rrest).reverse.getD j (0, 0, 0, 0) := by
        rw [stack_below (mc, cx, cy, i0) (f2 :: rrest) j
          (by simp only [List.length_cons]; omega)]
      rw [heqf]
      have h7 := hS7 j (by simp only [List.length_cons]; omega)
      refine ⟨h7.1, ?_, h7.2.2⟩
      rw [getD_dropLast path j (0, 0) (by omega)]
      exact h7.2.1
  · intro T hT
    rcases hLive T hT with ⟨htake, hrest⟩ | ⟨d, hd0, hdk, htaked, hne, hge⟩
    all_goals simp only [mkState_path] at *
    · exact absurd (prefix_clause_dead hS hmc hfind T hT htake (by
        have hcur : cursorAt ⟨board, path, (mc, cx, cy, i0) :: f2 :: rrest⟩
            (path.length - 1) = i0 := by
          unfold cursorAt
          simp only []
          rw [show path.length - 1 = (f2 :: rrest).length from by
            simp only [List.length_cons]; omega]
          rw [stack_top]
        rw [← hcur]
        exact hrest)) (fun h => h)
    · by_cases hdtop : d = path.length - 1
      · -- the divergence depth becomes a full prefix of the popped path
        left
        subst hdtop
        have htake2 : T.take path.dropLast.length = path.dropLast := by
          rw [hdllen, List.dropLast_eq_take]
          exact htaked
        refine ⟨htake2, Or.inr ?_⟩
        have hne2 : path.length - 1 < n * n := by
          have := path_length_le n path (OrderInv_nodup hS.2.2.2.2.2.1) hS.2.2.2.1
          omega
        rw [hdllen]
        rw [getD_dropLast path (path.length - 1 - 1) (0, 0) (by omega)]
        rw [← hcur_s (path.length - 1 - 1) (by omega)]
        exact hge
      · -- the divergence survives unchanged
        right
        refine ⟨d, hd0, by rw [hdllen]; omega, ?_, ?_, ?_⟩
        · rw [List.dropLast_eq_take, List.take_take, min_eq_left (by omega)]
          exact htaked
        · rw [getD_dropLast path d (0, 0) (by omega)]
          exact hne
        · rw [getD_dropLast path (d - 1) (0, 0) (by omega)]
          rw [← hcur_s (d - 1) (by omega)]
          exact hge

/-- Advancing into a found valid move preserves the structural invariant and
liveness. -/
theorem push_preserves {n : Nat} {start : Pos} {board : Board} {path : List Pos}
    {mc : Nat} {cx cy : Int} {i0 : Nat} {rest : List Frame} {j : Nat} {nx ny : Int}
    (hS : StackOk n start ⟨board, path, (mc, cx, cy, i0) :: rest⟩)
    (hLive : ∀ T, IsKnightTour n start T →
      LiveT n ⟨board, path, (mc, cx, cy, i0) :: rest⟩ T)
    (hmc : mc ≠ n * n)
    (hfind : findValidFrom n board cx cy i0 = some (j, nx, ny)) :
    StackOk n start
      ⟨board.set nx ny (mc : Int), path ++ [(nx, ny)],
        (mc + 1, nx, ny, 0) :: (mc, cx, cy, j + 1) :: rest⟩ ∧
    ∀ T, IsKnightTour n start T →
      LiveT n ⟨board.set nx ny (mc : Int), path ++ [(nx, ny)],
        (mc + 1, nx, ny, 0) :: (mc, cx, cy, j + 1) :: rest⟩ T := by
  rcases top_frame_facts hS with ⟨hf1, hf2, hf3, hf4⟩
  simp only [] at hf1 hf2 hf3
  rcases findValidFrom_some n board cx cy i0 j nx ny hf3 hfind
    with ⟨hij, hj8, hnx, hny, hval, hinval⟩
  have hklt : path.length < n * n := by
    have := path_length_le n path (OrderInv_nodup hS.2.2.2.2.2.1) hS.2.2.2.1
    omega
  have hstep : knightStep (path.getD (path.length - 1) (0, 0)) (nx, ny) := by
    unfold knightStep
    rw [← hf2]
    have : ((nx, ny).1 - ((cx, cy) : Pos).1, (nx, ny).2 - ((cx, cy) : Pos).2)
        = ((movesX.getD j 0, movesY.getD j 0) : Pos) := by
      apply Prod.ext
      · show nx - cx = movesX.getD j 0
        omega
      · show ny - cy = movesY.getD j 0
        omega
    rw [this]
    exact moves_mem_offsets j hj8
  have hvb : inB n (nx, ny) ∧ board nx ny = -1 := by
    have := (isValidMove_iff n board nx ny).mp hval
    exact this
  have hlast2 : (path ++ [(nx, ny)]).getD path.length (0, 0) = (nx, ny) :=
    getD_concat path (nx, ny) (0, 0)
  have hcur_below : ∀ j2, j2 < rest.length →
      cursorAt ⟨board.set nx ny (mc : Int), path ++ [(nx, ny)],
        (mc + 1, nx, ny, 0) :: (mc, cx, cy, j + 1) :: rest⟩ j2
      = cursorAt ⟨board, path, (mc, cx, cy, i0) :: rest⟩ j2 := by
    intro j2 hj2
    unfold cursorAt
    simp only [mkState_stack]
    rw [stack2_below, stack_below]
    · exact hj2
    · exact hj2
  have hcur_mid : cursorAt ⟨board.set nx ny (mc : Int), path ++ [(nx, ny)],
      (mc + 1, nx, ny, 0) :: (mc, cx, cy, j + 1) :: rest⟩ rest.length = j + 1 := by
    unfold cursorAt
    simp only [mkState_stack]
    rw [stack2_mid]
  have hcur_top : cursorAt ⟨board.set nx ny (mc : Int), path ++ [(nx, ny)],
      (mc + 1, nx, ny, 0) :: (mc, cx, cy, j + 1) :: rest⟩ (rest.length + 1) = 0 := by
    unfold cursorAt
    simp only [mkState_stack]
    rw [stack2_top]
  have hcur_s_top : cursorAt ⟨board, path, (mc, cx, cy, i0) :: rest⟩
      (path.length - 1) = i0 := by
    unfold cursorAt
    simp only [mkState_stack]
    rw [show path.length - 1 = rest.length from by omega, stack_top]
  constructor
  · rcases hS with ⟨hS1, hS2, hS3, hS4, hS5, hS6, hS7⟩
    unfold StackOk
    simp only [mkState_path, mkState_board, mkState_stack] at *
    refine ⟨?_, ?_, ?_, ?_, ?_, ?_, ?_⟩
    · simp only [List.length_cons, List.length_append, List.length_singleton,
        List.length_nil]
      omega
    · simp only [List.length_append, List.length_singleton, List.length_nil]
      omega
    · rw [List.getD_append _ _ _ _ (by omega)]
      exact hS3
    · intro c hc
      rcases List.mem_append.mp hc with hc | hc
      · exact hS4 c hc
      · rw [List.mem_singleton.mp hc]
        exact hvb.1
    · exact PathChain_append hS5 hS2 hstep
    · have := @OrderInv_place n board path (nx, ny) hS6 hvb.2
      rw [show ((path.length : Int)) = (mc : Int) from by omega] at this
      exact this
    · intro j2 hj2
      simp only [List.length_cons] at hj2
      by_cases hlt : j2 < rest.length
      · have heqf : (((mc + 1, nx, ny, 0) :: (mc, cx, cy, j + 1) :: rest).reverse.getD
            j2 (0, 0, 0, 0))
            = ((mc, cx, cy, i0) :: rest).reverse.getD j2 (0, 0, 0, 0) := by
          rw [stack2_below _ _ _ _ hlt, stack_below _ _ _ hlt]
        rw [heqf]
        have h7 := hS7 j2 (by simp only [List.length_cons]; omega)
        refine ⟨h7.1, ?_, h7.2.2⟩
        rw [List.getD_append _ _ _ _ (by omega)]
        exact h7.2.1
      · by_cases hmid : j2 = rest.length
        · subst hmid
          rw [stack2_mid]
          refine ⟨by simp only []; omega, ?_, by simp only []; omega⟩
          rw [List.getD_append _ _ _ _ (by omega)]
          simp only []
          rw [hf2, show rest.length = path.length - 1 from by omega]
        · have htop : j2 = rest.length + 1 := by omega
          subst htop
          rw [stack2_top]
          refine ⟨by simp only []; omega, ?_, by simp only []; omega⟩
          simp only []
          rw [show rest.length + 1 = path.length from by omega, hlast2]
  · intro T hT
    have hTlen : T.length = n * n := hT.1
    rcases hLive T hT with ⟨htake, hrest⟩ | ⟨d, hd0, hdk, htaked, hne, hge⟩
    all_goals simp only [mkState_path] at *
    · -- the current path is a prefix of T
      rcases hrest with hdone | hge
      · exact absurd (by omega : mc = n * n) hmc
      · rw [hcur_s_top] at hge
        rcases hge with ⟨m, hmi0, hm8, hmt⟩
        rw [hf2.symm] at hmt
        have hvalidT := tour_next_valid n start T board path hT hS.2.2.2.2.2.1 htake hklt
        have hmj : j ≤ m := by
          by_contra hcon
          push_neg at hcon
          have := hinval m hmi0 hcon
          rw [hmt] at hvalidT
          exact this hvalidT
        by_cases hmeq : m = j
        · -- T continues through the cell just pushed
          subst hmeq
          have hTk : T.getD path.length (0, 0) = (nx, ny) := by
            rw [hmt]
            apply Prod.ext
            · show cx + movesX.getD m 0 = nx
              omega
            · show cy + movesY.getD m 0 = ny
              omega
          left
          constructor
          · rw [List.length_append, List.length_singleton,
              take_concat_getD T path.length (by omega), htake, hTk]
          · by_cases hfull : path.length + 1 = n * n
            · left
              simp only [List.length_append, List.length_singleton]
              omega
            · right
              simp only [List.length_append, List.length_singleton]
              have hc0 : cursorAt ⟨board.set nx ny (mc : Int), path ++ [(nx, ny)],
                  (mc + 1, nx, ny, 0) :: (mc, cx, cy, m + 1) :: rest⟩
                  (path.length + 1 - 1) = 0 := by
                rw [show path.length + 1 - 1 = rest.length + 1 from by omega]
                exact hcur_top
              rw [hc0, show path.length + 1 - 1 = path.length from by omega, hlast2]
              rcases tour_next_idx n start T hT (path.length + 1) (by omega) (by omega)
                with ⟨i, hi8, hformula⟩
              rw [show path.length + 1 - 1 = path.length from by omega] at hformula
              refine ⟨i, Nat.zero_le i, hi8, ?_⟩
              rw [← hTk]
              exact hformula
        · -- T branches off above the new cursor
          right
          refine ⟨path.length, by omega, ?_, ?_, ?_, ?_⟩
          · simp only [List.length_append, List.length_singleton]
            omega
          · rw [take_append_le path [(nx, ny)] path.length (le_refl _),
              List.take_length, htake]
          · rw [hlast2, hmt]
            intro hcon
            have h1 : cx + movesX.getD m 0 = nx := congrArg Prod.fst hcon
            have h2 : cy + movesY.getD m 0 = ny := congrArg Prod.snd hcon
            exact moves_ne m hm8 j hj8 (by omega) ⟨by omega, by omega⟩
          · rw [show path.length - 1 = rest.length from by omega, hcur_mid,
              List.getD_append _ _ _ _ (by omega),
              show rest.length = path.length - 1 from by omega, hf2.symm]
            exact ⟨m, by omega, hm8, hmt⟩
    · -- T already diverged below: unchanged
      right
      refine ⟨d, hd0, ?_, ?_, ?_, ?_⟩
      · simp only [List.length_append, List.length_singleton]
        omega
      · rw [take_append_le path [(nx, ny)] d (by omega)]
        exact htaked
      · rw [List.getD_append _ _ _ _ (by omega)]
        exact hne
      · rw [List.getD_append _ _ _ _ (by omega)]
        rw [hcur_below (d - 1) (by omega)]
        exact hge

/-- The board/path invariant at the start of a search. -/
theorem OrderInv_init (n : Nat) (sx sy : Int) :
    OrderInv n (emptyBoard.set sx sy 0) [(sx, sy)] := by
  constructor
  · intro j hj
    simp only [List.length_singleton] at hj
    have : j = 0 := by omega
    subst this
    simp only [List.getD_cons_zero]
    rw [Board.set_same]
    rfl
  · intro x y hxy
    by_cases hc : x = sx ∧ y = sy
    · exact ⟨0, by simp, by rw [List.getD_cons_zero, hc.1, hc.2]⟩
    · exfalso
      apply hxy
      rw [Board.set_other _ _ _ _ _ _ hc]
      rfl

/-- The loop invariant holds at the initial state of `solve`. -/
theorem btInit_inv (n : Nat) (sx sy : Int) (hin : inB n (sx, sy)) :
    BTInv n (sx, sy) (btInit n sx sy) := by
  have hn1 : 1 ≤ n := by
    rcases hin with ⟨h1, h2, -⟩
    simp only [] at h1 h2
    omega
  constructor
  · intro hemp
    exact absurd hemp (by simp [btInit])
  · intro _
    constructor
    · unfold StackOk btInit
      simp only [mkState_path, mkState_board, mkState_stack]
      refine ⟨by simp, by simp, by simp, ?_, ?_, OrderInv_init n sx sy, ?_⟩
      · intro c hc
        rw [List.mem_singleton.mp hc]
        exact hin
      · intro j hj
        simp only [List.length_singleton] at hj
        omega
      · intro j hj
        simp only [List.length_singleton] at hj
        have : j = 0 := by omega
        subst this
        exact ⟨rfl, rfl, by show (0 : Nat) ≤ 8; omega⟩
    · intro T hT
      unfold LiveT
      simp only [mkState_path, btInit, List.length_singleton]
      have hTlen : T.length = n * n := hT.1
      have hThead : T.getD 0 (0, 0) = (sx, sy) := hT.2.1
      left
      constructor
      · rw [show (1 : Nat) = 0 + 1 from rfl, take_concat_getD T 0 (by
          have : 1 ≤ n * n := Nat.one_le_iff_ne_zero.mpr (by positivity)
          omega)]
        rw [List.take_zero, hThead]
        rfl
      · by_cases hsz : 1 = n * n
        · exact Or.inl hsz.symm.symm
        · right
          have h1 : 1 < n * n := by
            have : 1 ≤ n * n := Nat.mul_le_mul hn1 hn1
            omega
          rcases tour_next_idx n (sx, sy) T hT 1 (by omega) h1 with ⟨i, hi8, hform⟩
          refine ⟨i, ?_, hi8, ?_⟩
          · have : cursorAt ⟨emptyBoard.set sx sy 0, [(sx, sy)], [(1, sx, sy, 0)]⟩
                (1 - 1) = 0 := rfl
            rw [this]
            omega
          · show T.getD 1 (0, 0)
              = ((sx, sy).1 + movesX.getD i 0, (sx, sy).2 + movesY.getD i 0)
            rw [← hThead]
            exact hform

/-- A `False` return happens only from the empty stack, with the board and
path reset. -/
theorem btStep_false_shape {n : Nat} {s : BTState} {b : Board} {p : List Pos}
    (h : btStep n s = Sum.inl (false, b, p)) :
    s.stack = [] ∧ b = emptyBoard ∧ p = [] := by
  rcases s with ⟨board, path, stack⟩
  rcases stack with - | ⟨⟨mc, cx, cy, i0⟩, rest⟩
  · simp only [btStep, Sum.inl.injEq, Prod.mk.injEq] at h
    exact ⟨rfl, h.2.1.symm, h.2.2.symm⟩
  · exfalso
    by_cases hmc : mc = n * n
    · simp only [btStep, hmc, if_true, Sum.inl.injEq, Prod.mk.injEq] at h
      exact absurd h.1 (by decide)
    · simp only [btStep, hmc, if_false] at h
      rcases hfv : findValidFrom n board cx cy i0 with - | ⟨⟨j, nx, ny⟩⟩
      · rw [hfv] at h
        rcases rest with - | ⟨f2, rrest⟩ <;> simp at h
      · rw [hfv] at h
        simp at h

/-- A `True` return happens only with a complete top frame, returning the
current board and path. -/
theorem btStep_true_shape {n : Nat} {s : BTState} {b : Board} {p : List Pos}
    (h : btStep n s = Sum.inl (true, b, p)) :
    b = s.board ∧ p = s.path ∧
      ∃ mc cx cy i0 rest, s.stack = (mc, cx, cy, i0) :: rest ∧ mc = n * n := by
  rcases s with ⟨board, path, stack⟩
  rcases stack with - | ⟨⟨mc, cx, cy, i0⟩, rest⟩
  · simp only [btStep, Sum.inl.injEq, Prod.mk.injEq] at h
    exact absurd h.1 (by simp)
  · by_cases hmc : mc = n * n
    · simp only [btStep, hmc, if_true, Sum.inl.injEq, Prod.mk.injEq] at h
      exact ⟨h.2.1.symm, h.2.2.symm, mc, cx, cy, i0, rest, by rw [hmc], hmc⟩
    · exfalso
      simp only [btStep, hmc, if_false] at h
      rcases hfv : findValidFrom n board cx cy i0 with - | ⟨⟨j, nx, ny⟩⟩
      · rw [hfv] at h
        rcases rest with - | ⟨f2, rrest⟩ <;> simp at h
      · rw [hfv] at h
        simp at h

/-- One loop iteration preserves the full invariant. -/
theorem btStep_preserves {n : Nat} {start : Pos} {s s2 : BTState}
    (h : btStep n s = Sum.inr s2) (hI : BTInv n start s) :
    BTInv n start s2 := by
  rcases s with ⟨board, path, stack⟩
  rcases stack with - | ⟨⟨mc, cx, cy, i0⟩, rest⟩
  · simp only [btStep] at h
    exact Sum.noConfusion h
  · have hne : ((mc, cx, cy, i0) :: rest : List Frame) ≠ [] := List.cons_ne_nil _ _
    rcases hI.2 hne with ⟨hS, hLive⟩
    by_cases hmc : mc = n * n
    · simp only [btStep, hmc, if_true] at h
      exact Sum.noConfusion h
    · simp only [btStep, hmc, if_false] at h
      rcases hfv : findValidFrom n board cx cy i0 with - | ⟨⟨j, nx, ny⟩⟩
      · rw [hfv] at h
        rcases rest with - | ⟨f2, rrest⟩
        · simp only [Sum.inr.injEq] at h
          subst h
          constructor
          · intro _
            exact pop_empty_no_tour hS hLive hmc hfv
          · intro hcon
            exact absurd rfl hcon
        · simp only [Sum.inr.injEq] at h
          subst h
          have := pop_preserves hS hLive hmc hfv
          constructor
          · intro hemp
            exact absurd hemp (by simp)
          · intro _
            exact this
      · rw [hfv] at h
        simp only [Sum.inr.injEq] at h
        subst h
        have := push_preserves hS hLive hmc hfv
        constructor
        · intro hemp
          exact absurd hemp (by simp)
        · intro _
          exact this

theorem btRun_preserves {n : Nat} {start : Pos} :
    ∀ (fuel : Nat) (s s2 : BTState), btRun n fuel s = Sum.inr s2 →
    BTInv n start s → BTInv n start s2 := by
  intro fuel
  induction fuel with
  | zero =>
    intro s s2 h hI
    simp only [btRun, Sum.inr.injEq] at h
    rw [← h]
    exact hI
  | succ fuel ih =>
    intro s s2 h hI
    simp only [btRun] at h
    rcases hst : btStep n s with r | s3
    · rw [hst] at h
      exact Sum.noConfusion h
    · rw [hst] at h
      exact ih s3 s2 h (btStep_preserves hst hI)

/-- A `False` run result means no tour exists, and the returned board and
path are clean. -/
theorem btRun_false {n : Nat} {start : Pos} :
    ∀ (fuel : Nat) (s : BTState) (b : Board) (p : List Pos),
    btRun n fuel s = Sum.inl (false, b, p) → BTInv n start s →
    (∀ T, ¬ IsKnightTour n start T) ∧ b = emptyBoard ∧ p = [] := by
  intro fuel
  induction fuel with
  | zero =>
    intro s b p h
    simp only [btRun] at h
    exact Sum.noConfusion h
  | succ fuel ih =>
    intro s b p h hI
    simp only [btRun] at h
    rcases hst : btStep n s with r | s3
    · rw [hst] at h
      simp only [Sum.inl.injEq] at h
      rw [h] at hst
      rcases btStep_false_shape hst with ⟨hemp, hb, hp⟩
      exact ⟨hI.1 hemp, hb, hp⟩
    · rw [hst] at h
      exact ih s3 b p h (btStep_preserves hst hI)

/-- A `True` run result carries a genuine knight's tour covering the whole
board, and the board agrees with the path. -/
theorem btRun_true {n : Nat} {start : Pos} :
    ∀ (fuel : Nat) (s : BTState) (b : Board) (p : List Pos),
    btRun n fuel s = Sum.inl (true, b, p) → BTInv n start s →
    IsKnightTour n start p ∧ coversBoard n p ∧ OrderInv n b p := by
  intro fuel
  induction fuel with
  | zero =>
    intro s b p h
    simp only [btRun] at h
    exact Sum.noConfusion h
  | succ fuel ih =>
    intro s b p h hI
    simp only [btRun] at h
    rcases hst : btStep n s with r | s3
    · rw [hst] at h
      simp only [Sum.inl.injEq] at h
      rw [h] at hst
      rcases btStep_true_shape hst with ⟨hb, hp, mc, cx, cy, i0, rest, hstack, hmc⟩
      have hne : s.stack ≠ [] := by rw [hstack]; exact List.cons_ne_nil _ _
      rcases hI.2 hne with ⟨hS, -⟩
      have hS2 : StackOk n start ⟨s.board, s.path, (mc, cx, cy, i0) :: rest⟩ := by
        rcases s with ⟨sb, sp, sst⟩
        simp only [mkState_stack] at hstack
        rw [← hstack]
        exact hS
      rcases top_frame_facts hS2 with ⟨hf1, -, -, -⟩
      simp only [mkState_path] at hf1
      have hlen : s.path.length = n * n := by omega
      have hnd : s.path.Nodup := OrderInv_nodup hS.2.2.2.2.2.1
      have htour : IsKnightTour n start s.path :=
        ⟨hlen, hS.2.2.1, hS.2.2.2.1, hnd, hS.2.2.2.2.1⟩
      subst hb
      subst hp
      exact ⟨htour, covers_of_nodup n s.path hnd hS.2.2.2.1 hlen,
        hS.2.2.2.2.2.1⟩
    · rw [hst] at h
      exact ih s3 b p h (btStep_preserves hst hI)

/-- Mid-run states satisfy the loop invariant, in particular the board/path
consistency. -/
theorem btRun_mid {n : Nat} {start : Pos} (fuel : Nat) (s s2 : BTState)
    (h : btRun n fuel s = Sum.inr s2) (hI : BTInv n start s)
    (hne : s2.stack ≠ []) : OrderInv n s2.board s2.path := by
  have := btRun_preserves fuel s s2 h hI
  exact (this.2 hne).1.2.2.2.2.2.1

/-! ### Termination measure -/

/-- The loop measure: frames weigh `(8 - cursor) · 9^(n² - depth)` plus one,
deeper frames weighing less; it strictly decreases at every iteration. -/
def stackMeasure (n : Nat) : List Frame → Nat
  | [] => 0
  | f :: rest => (8 - f.2.2.2) * 9 ^ (n * n - rest.length) + 1 + stackMeasure n rest

theorem push_measure_aux (w i0 j : Nat) (hw : 9 ≤ w) (hij : i0 ≤ j) (hj : j < 8) :
    8 * w + (8 - (j + 1)) * (9 * w) + 2 ≤ (8 - i0) * (9 * w) := by
  have h1 : 8 - (j + 1) + 1 ≤ 8 - i0 := by omega
  have h2 : (8 - (j + 1) + 1) * (9 * w) ≤ (8 - i0) * (9 * w) :=
    Nat.mul_le_mul_right _ h1
  have h3 : 8 * w + 2 ≤ 9 * w := by omega
  calc 8 * w + (8 - (j + 1)) * (9 * w) + 2
      = (8 - (j + 1)) * (9 * w) + (8 * w + 2) := by ring
    _ ≤ (8 - (j + 1)) * (9 * w) + 9 * w := Nat.add_le_add_left h3 _
    _ = (8 - (j + 1) + 1) * (9 * w) := by ring
    _ ≤ (8 - i0) * (9 * w) := h2

/-- Every continuing iteration strictly decreases the measure. -/
theorem btStep_measure {n : Nat} {start : Pos} {s s2 : BTState}
    (h : btStep n s = Sum.inr s2) (hI : BTInv n start s) :
    stackMeasure n s2.stack < stackMeasure n s.stack := by
  rcases s with ⟨board, path, stack⟩
  rcases stack with - | ⟨⟨mc, cx, cy, i0⟩, rest⟩
  · simp only [btStep] at h
    exact Sum.noConfusion h
  · have hne : ((mc, cx, cy, i0) :: rest : List Frame) ≠ [] := List.cons_ne_nil _ _
    rcases hI.2 hne with ⟨hS, -⟩
    rcases top_frame_facts hS with ⟨hf1, -, hf3, hf4⟩
    simp only [mkState_path] at hf1 hf4
    simp only [] at hf3
    by_cases hmc : mc = n * n
    · simp only [btStep, hmc, if_true] at h
      exact Sum.noConfusion h
    · simp only [btStep, hmc, if_false] at h
      have hkle : path.length ≤ n * n :=
        path_length_le n path (OrderInv_nodup hS.2.2.2.2.2.1) hS.2.2.2.1
      have hrle : rest.length + 2 ≤ n * n := by omega
      rcases hfv : findValidFrom n board cx cy i0 with - | ⟨⟨j, nx, ny⟩⟩
      · rw [hfv] at h
        rcases rest with - | ⟨f2, rrest⟩
        · simp only [Sum.inr.injEq] at h
          rw [← h]
          simp only [mkState_stack, stackMeasure]
          omega
        · simp only [Sum.inr.injEq] at h
          rw [← h]
          simp only [mkState_stack, stackMeasure]
          omega
      · rw [hfv] at h
        simp only [Sum.inr.injEq] at h
        rw [← h]
        simp only [mkState_stack, stackMeasure, List.length_cons]
        rcases findValidFrom_some n board cx cy i0 j nx ny hf3 hfv
          with ⟨hij, hj8, -, -, -, -⟩
        have hw : (9 : Nat) ≤ 9 ^ (n * n - (rest.length + 1)) := by
          have h1 : 1 ≤ n * n - (rest.length + 1) := by omega
          calc (9 : Nat) = 9 ^ 1 := by norm_num
            _ ≤ 9 ^ (n * n - (rest.length + 1)) := Nat.pow_le_pow_right (by omega) h1
        have hsplit : 9 ^ (n * n - rest.length)
            = 9 * 9 ^ (n * n - (rest.length + 1)) := by
          rw [show n * n - rest.length = (n * n - (rest.length + 1)) + 1 from by omega]
          rw [pow_succ]
          ring
        have := push_measure_aux (9 ^ (n * n - (rest.length + 1))) i0 j hw hij hj8
        rw [hsplit]
        omega

theorem btRun_terminates {n : Nat} {start : Pos} :
    ∀ (fuel : Nat) (s : BTState), BTInv n start s →
    stackMeasure n s.stack < fuel → ∃ r, btRun n fuel s = Sum.inl r := by
  intro fuel
  induction fuel with
  | zero => intro s _ hm; omega
  | succ fuel ih =>
    intro s hI hm
    rcases hst : btStep n s with r | s3
    · exact ⟨r, by simp only [btRun, hst]⟩
    · have hm2 := btStep_measure hst hI
      rcases ih s3 (btStep_preserves hst hI) (by omega) with ⟨r, hr⟩
      exact ⟨r, by simp only [btRun, hst]; exact hr⟩

theorem measure_init (n : Nat) (sx sy : Int) :
    stackMeasure n (btInit n sx sy).stack = 8 * 9 ^ (n * n) + 1 := by
  simp [btInit, stackMeasure]

/-- `solve` terminates: the fuel bound always suffices. -/
theorem solve_terminates (n : Nat) (sx sy : Int) (hin : inB n (sx, sy)) :
    ∃ r, solve n sx sy = some r := by
  rcases btRun_terminates (fuelBound n) (btInit n sx sy) (btInit_inv n sx sy hin)
    (by rw [measure_init]; unfold fuelBound; omega) with ⟨r, hr⟩
  exact ⟨r, by unfold solve; rw [hr]⟩

/-- `solve` facts packaged at the top level. -/
theorem solve_false (n : Nat) (sx sy : Int) (hin : inB n (sx, sy))
    (b : Board) (p : List Pos) (h : solve n sx sy = some (false, b, p)) :
    (∀ T, ¬ IsKnightTour n (sx, sy) T) ∧ b = emptyBoard ∧ p = [] := by
  unfold solve at h
  rcases hr : btRun n (fuelBound n) (btInit n sx sy) with r | s2
  · rw [hr] at h
    simp only [Option.some_inj] at h
    rw [h] at hr
    exact btRun_false (fuelBound n) (btInit n sx sy) b p hr (btInit_inv n sx sy hin)
  · rw [hr] at h
    exact Option.noConfusion h

theorem solve_true (n : Nat) (sx sy : Int) (hin : inB n (sx, sy))
    (b : Board) (p : List Pos) (h : solve n sx sy = some (true, b, p)) :
    IsKnightTour n (sx, sy) p ∧ coversBoard n p ∧ OrderInv n b p := by
  unfold solve at h
  rcases hr : btRun n (fuelBound n) (btInit n sx sy) with r | s2
  · rw [hr] at h
    simp only [Option.some_inj] at h
    rw [h] at hr
    exact btRun_true (fuelBound n) (btInit n sx sy) b p hr (btInit_inv n sx sy hin)
  · rw [hr] at h
    exact Option.noConfusion h

/-! ### solveVariation: the packaged single-attempt facts -/

theorem WInv_init (famQ : Int → Nat → PyFloat) (n : Nat) (sx sy : Int)
    (r : PyRandom) (hin : inB n (sx, sy)) :
    WInv n (sx, sy) ⟨emptyBoard.set sx sy 0, [(sx, sy)], r⟩ := by
  refine ⟨by simp, by simp, ?_, ?_, OrderInv_init n sx sy⟩
  · intro c hc
    rw [List.mem_singleton.mp hc]
    exact hin
  · intro j hj
    simp only [List.length_singleton] at hj
    omega

/-- A Warnsdorff attempt on a fresh board keeps the invariant and succeeds
exactly when the final path has `n²` cells. -/
theorem solveVariation_spec (famQ : Int → Nat → PyFloat) (n : Nat) (sx sy : Int)
    (variation : Nat) (prefs : List Nat) (r : PyRandom)
    (hpref : ∀ i ∈ prefs, i < 8) (hin : inB n (sx, sy)) :
    WInv n (sx, sy) (solveVariation famQ n sx sy variation prefs emptyBoard r).2 ∧
    ((solveVariation famQ n sx sy variation prefs emptyBoard r).1 = true ↔
      (solveVariation famQ n sx sy variation prefs emptyBoard r).2.path.length = n * n) := by
  have hn1 : 1 ≤ n := by
    rcases hin with ⟨h1, h2, -⟩
    simp only [] at h1 h2
    omega
  have hnn : 1 ≤ n * n := Nat.mul_le_mul hn1 hn1
  have hspec := warnsLoop_spec famQ n variation prefs (sx, sy) hpref (n * n - 1) 1
    ⟨emptyBoard.set sx sy 0, [(sx, sy)], r⟩ (sx, sy)
    (WInv_init famQ n sx sy r hin) (by simp) (by simp)
  unfold solveVariation
  refine ⟨hspec.1, ?_, ?_⟩
  · intro htrue
    have := hspec.2.1 htrue
    omega
  · intro hlen
    rcases Bool.eq_false_or_eq_true
      (warnsLoop famQ n variation prefs 1 (n * n - 1) (sx, sy)
        ⟨emptyBoard.set sx sy 0, [(sx, sy)], r⟩).1 with htrue | hfalse
    · exact htrue
    · exfalso
      have := hspec.2.2 hfalse
      omega

/-- The claim-level reading of the board invariant: after `k` placements each
order value `v < k` sits in exactly one cell — the `v`-th path cell — and
cells off the path hold the sentinel. -/
def ExactOrders (n : Nat) (b : Board) (p : List Pos) : Prop :=
  (∀ v, v < p.length → b (p.getD v (0, 0)).1 (p.getD v (0, 0)).2 = (v : Int) ∧
    ∀ x y, b x y = (v : Int) → (x, y) = p.getD v (0, 0)) ∧
  (∀ x y, (∀ j, j < p.length → p.getD j (0, 0) ≠ (x, y)) → b x y = -1)

theorem OrderInv_exact {n : Nat} {b : Board} {p : List Pos}
    (h : OrderInv n b p) : ExactOrders n b p := by
  constructor
  · intro v hv
    refine ⟨h.1 v hv, ?_⟩
    intro x y hxy
    have hne : b x y ≠ -1 := by rw [hxy]; omega
    rcases h.2 x y hne with ⟨j, hj, hcell⟩
    have := h.1 j hj
    rw [hcell] at this
    rw [hxy] at this
    have hjv : j = v := by exact_mod_cast this.symm
    rw [← hcell, hjv]
  · intro x y hall
    by_contra hne
    rcases h.2 x y hne with ⟨j, hj, hcell⟩
    exact hall j hj hcell

/-! ### The orchestrator, attempt by attempt -/

/-- The seed `attempt + size * 1000` installed before attempt `i`. -/
def attemptSeed (n i : Nat) : Int := (i : Int) + (n : Int) * 1000

/-- What attempt `i` of the orchestrator computes, as a function of the
attempt index alone (thanks to the reseeding): the preference order drawn
after seeding, and the Warnsdorff run on a fresh board. -/
def attemptRun (famQ : Int → Nat → PyFloat) (famPerm : Int → Nat → List Nat × Nat)
    (n : Nat) (sx sy : Int) (i : Nat) : Bool × WSt :=
  solveVariation famQ n sx sy (i % 3)
    (pyShuffle famPerm (pySeed (attemptSeed n i))).1 emptyBoard
    (pyShuffle famPerm (pySeed (attemptSeed n i))).2

/-- The `variation_info` record attempt `i` appends. -/
def attemptRecordOf (famQ : Int → Nat → PyFloat) (famPerm : Int → Nat → List Nat × Nat)
    (n : Nat) (sx sy : Int) (i : Nat) : AttemptRecord :=
  { attempt := i + 1, variationType := i % 3, randomSeed := attemptSeed n i,
    movePreferences := (pyShuffle famPerm (pySeed (attemptSeed n i))).1,
    startPosition := (sx, sy),
    successful := (attemptRun famQ famPerm n sx sy i).1,
    pathLength := (attemptRun famQ famPerm n sx sy i).2.path.length }

/-- The observable part of the remaining loop, as a function of the next
attempt index, the remaining budget and the current fingerprint set only:
returned flag, appended records, final fingerprint set. -/
def orchDelta (famQ : Int → Nat → PyFloat) (famPerm : Int → Nat → List Nat × Nat)
    (hashF : List Pos × List Pos → Int) (n : Nat) (sx sy : Int) :
    Nat → Nat → List Int → Bool × List AttemptRecord × List Int
  | _, 0, att => (false, [], att)
  | i, rem + 1, att =>
    let res := attemptRun famQ famPerm n sx sy i
    if res.1 ∧ getPathHash hashF res.2.path ∉ att then
      (true, [attemptRecordOf famQ famPerm n sx sy i], att)
    else
      let d := orchDelta famQ famPerm hashF n sx sy (i + 1) rem
        (if 0 < res.2.path.length then addHash att (getPathHash hashF res.2.path) else att)
      (d.1, attemptRecordOf famQ famPerm n sx sy i :: d.2.1, d.2.2)

theorem orchLoop_succ (famQ : Int → Nat → PyFloat)
    (famPerm : Int → Nat → List Nat × Nat) (hashF : List Pos × List Pos → Int)
    (n : Nat) (sx sy : Int) (i rem : Nat) (st : OrchState) :
    orchLoop famQ famPerm hashF n sx sy i (rem + 1) st =
      (if (attemptRun famQ famPerm n sx sy i).1
          ∧ getPathHash hashF (attemptRun famQ famPerm n sx sy i).2.path ∉ st.attempted
        then (true,
          { board := (attemptRun famQ famPerm n sx sy i).2.board,
            path := (attemptRun famQ famPerm n sx sy i).2.path,
            rng := (attemptRun famQ famPerm n sx sy i).2.rng,
            stats := st.stats ++ [attemptRecordOf famQ famPerm n sx sy i],
            attempted := st.attempted })
        else orchLoop famQ famPerm hashF n sx sy (i + 1) rem
          { board := (attemptRun famQ famPerm n sx sy i).2.board,
            path := (attemptRun famQ famPerm n sx sy i).2.path,
            rng := (attemptRun famQ famPerm n sx sy i).2.rng,
            stats := st.stats ++ [attemptRecordOf famQ famPerm n sx sy i],
            attempted :=
              if 0 < (attemptRun famQ famPerm n sx sy i).2.path.length then
                addHash st.attempted
                  (getPathHash hashF (attemptRun famQ famPerm n sx sy i).2.path)
              else st.attempted }) := rfl

/-- The loop's observable behaviour is `orchDelta` of the incoming
fingerprint set, with records appended to the incoming statistics. -/
theorem orchLoop_delta (famQ : Int → Nat → PyFloat)
    (famPerm : Int → Nat → List Nat × Nat) (hashF : List Pos × List Pos → Int)
    (n : Nat) (sx sy : Int) :
    ∀ (rem i : Nat) (st : OrchState),
    (orchLoop famQ famPerm hashF n sx sy i rem st).1
      = (orchDelta famQ famPerm hashF n sx sy i rem st.attempted).1 ∧
    (orchLoop famQ famPerm hashF n sx sy i rem st).2.stats
      = st.stats ++ (orchDelta famQ famPerm hashF n sx sy i rem st.attempted).2.1 ∧
    (orchLoop famQ famPerm hashF n sx sy i rem st).2.attempted
      = (orchDelta famQ famPerm hashF n sx sy i rem st.attempted).2.2 := by
  intro rem
  induction rem with
  | zero =>
    intro i st
    simp [orchLoop, orchDelta]
  | succ rem ih =>
    intro i st
    rw [orchLoop_succ]
    by_cases hc : (attemptRun famQ famPerm n sx sy i).1 = true
        ∧ getPathHash hashF (attemptRun famQ famPerm n sx sy i).2.path ∉ st.attempted
    · rw [if_pos hc]
      simp only [orchDelta]
      rw [if_pos hc]
      exact ⟨rfl, rfl, rfl⟩
    · rw [if_neg hc]
      simp only [orchDelta]
      rw [if_neg hc]
      have := ih (i + 1)
        { board := (attemptRun famQ famPerm n sx sy i).2.board,
          path := (attemptRun famQ famPerm n sx sy i).2.path,
          rng := (attemptRun famQ famPerm n sx sy i).2.rng,
          stats := st.stats ++ [attemptRecordOf famQ famPerm n sx sy i],
          attempted :=
            if 0 < (attemptRun famQ famPerm n sx sy i).2.path.length then
              addHash st.attempted
                (getPathHash hashF (attemptRun famQ famPerm n sx sy i).2.path)
            else st.attempted }
      refine ⟨this.1, ?_, this.2.2⟩
      rw [this.2.1]
      simp

/-- The record list produced by the loop is an initial run of the per-attempt
records. -/
theorem orchDelta_stats (famQ : Int → Nat → PyFloat)
    (famPerm : Int → Nat → List Nat × Nat) (hashF : List Pos × List Pos → Int)
    (n : Nat) (sx sy : Int) :
    ∀ (rem i : Nat) (att : List Int), ∃ t, t ≤ rem ∧
    (orchDelta famQ famPerm hashF n sx sy i rem att).2.1
      = (List.range' i t).map (attemptRecordOf famQ famPerm n sx sy) ∧
    ((orchDelta famQ famPerm hashF n sx sy i rem att).1 = false → t = rem) := by
  intro rem
  induction rem with
  | zero =>
    intro i att
    exact ⟨0, le_refl 0, by simp [orchDelta], fun _ => rfl⟩
  | succ rem ih =>
    intro i att
    by_cases hc : (attemptRun famQ famPerm n sx sy i).1 = true
        ∧ getPathHash hashF (attemptRun famQ famPerm n sx sy i).2.path ∉ att
    · refine ⟨1, by omega, ?_, ?_⟩
      · simp only [orchDelta]
        rw [if_pos hc]
        simp [List.range']
      · intro hfalse
        simp only [orchDelta] at hfalse
        rw [if_pos hc] at hfalse
        exact absurd hfalse (by simp)
    · rcases ih (i + 1)
        (if 0 < (attemptRun famQ famPerm n sx sy i).2.path.length then
          addHash att (getPathHash hashF (attemptRun famQ famPerm n sx sy i).2.path)
        else att) with ⟨t, ht, hmap, hfull⟩
      refine ⟨t + 1, by omega, ?_, ?_⟩
      · simp only [orchDelta]
        rw [if_neg hc]
        simp only []
        rw [hmap, List.range'_succ]
        simp
      · intro hfalse
        simp only [orchDelta] at hfalse
        rw [if_neg hc] at hfalse
        simp only [] at hfalse
        have := hfull hfalse
        omega

/-- The fingerprint of attempt `i`'s final path. -/
def attemptHash (famQ : Int → Nat → PyFloat) (famPerm : Int → Nat → List Nat × Nat)
    (hashF : List Pos × List Pos → Int) (n : Nat) (sx sy : Int) (i : Nat) : Int :=
  getPathHash hashF (attemptRun famQ famPerm n sx sy i).2.path

/-- The fingerprint set the loop has accumulated before attempt `i` (as long
as no attempt has returned): every earlier attempt that left a nonempty path
— failed attempts included — contributed its fingerprint. -/
def accSet (famQ : Int → Nat → PyFloat) (famPerm : Int → Nat → List Nat × Nat)
    (hashF : List Pos × List Pos → Int) (n : Nat) (sx sy : Int) : Nat → List Int
  | 0 => []
  | i + 1 =>
    if 0 < (attemptRun famQ famPerm n sx sy i).2.path.length then
      addHash (accSet famQ famPerm hashF n sx sy i) (attemptHash famQ famPerm hashF n sx sy i)
    else accSet famQ famPerm hashF n sx sy i

/-- Attempt `i` succeeds with a fingerprint not yet recorded. -/
def NovelAt (famQ : Int → Nat → PyFloat) (famPerm : Int → Nat → List Nat × Nat)
    (hashF : List Pos × List Pos → Int) (n : Nat) (sx sy : Int) (i : Nat) : Prop :=
  (attemptRun famQ famPerm n sx sy i).1 = true ∧
    attemptHash famQ famPerm hashF n sx sy i ∉ accSet famQ famPerm hashF n sx sy i

theorem orchDelta_c4 (famQ : Int → Nat → PyFloat)
    (famPerm : Int → Nat → List Nat × Nat) (hashF : List Pos × List Pos → Int)
    (n : Nat) (sx sy : Int) :
    ∀ (rem i : Nat),
    (orchDelta famQ famPerm hashF n sx sy i rem
        (accSet famQ famPerm hashF n sx sy i)).1 = true ↔
      ∃ t, i ≤ t ∧ t < i + rem ∧ NovelAt famQ famPerm hashF n sx sy t ∧
        ∀ j, i ≤ j → j < t → ¬ NovelAt famQ famPerm hashF n sx sy j := by
  intro rem
  induction rem with
  | zero =>
    intro i
    simp only [orchDelta]
    constructor
    · intro h; exact absurd h (by simp)
    · rintro ⟨t, ht1, ht2, -, -⟩; omega
  | succ rem ih =>
    intro i
    by_cases hc : (attemptRun famQ famPerm n sx sy i).1 = true
        ∧ getPathHash hashF (attemptRun famQ famPerm n sx sy i).2.path
            ∉ accSet famQ famPerm hashF n sx sy i
    · constructor
      · intro _
        exact ⟨i, le_refl i, by omega, hc, fun j hj1 hj2 => by omega⟩
      · intro _
        simp only [orchDelta]
        rw [if_pos hc]
    · have hstep : (orchDelta famQ famPerm hashF n sx sy i (rem + 1)
          (accSet famQ famPerm hashF n sx sy i)).1
          = (orchDelta famQ famPerm hashF n sx sy (i + 1) rem
            (accSet famQ famPerm hashF n sx sy (i + 1))).1 := by
        simp only [orchDelta]
        rw [if_neg hc]
        rfl
      rw [hstep, ih (i + 1)]
      constructor
      · rintro ⟨t, ht1, ht2, hnov, hmin⟩
        refine ⟨t, by omega, by omega, hnov, ?_⟩
        intro j hj1 hj2
        rcases Nat.eq_or_lt_of_le hj1 with rfl | hj3
        · exact hc
        · exact hmin j (by omega) hj2
      · rintro ⟨t, ht1, ht2, hnov, hmin⟩
        have hti : t ≠ i := by
          intro hti
          rw [hti] at hnov
          exact hc hnov
        exact ⟨t, by omega, by omega, hnov, fun j hj1 hj2 => hmin j (by omega) hj2⟩

/-! ### Claim theorems -/

/-- C1: the iterative backtracking solver `solve` returns Failure only if no
knight's tour starting at the given in-bounds cell exists on the `n × n`
board; in particular, for `n = 3` and any start cell it returns Failure (with
the board and path fully reset), never a partial success. -/
theorem c1_backtracking_exhaustive :
    (∀ (n : Nat) (sx sy : Int), inB n (sx, sy) →
      ∀ (b : Board) (p : List Pos), solve n sx sy = some (false, b, p) →
      ∀ T, ¬ IsKnightTour n (sx, sy) T) ∧
    (∀ sx sy : Int, inB 3 (sx, sy) → solve 3 sx sy = some (false, emptyBoard, [])) := by
  constructor
  · intro n sx sy hin b p h
    exact (solve_false n sx sy hin b p h).1
  · intro sx sy hin
    have hx : sx = 0 ∨ sx = 1 ∨ sx = 2 := by
      rcases hin with ⟨h1, h2, -⟩
      simp only [] at h1 h2
      omega
    have hy : sy = 0 ∨ sy = 1 ∨ sy = 2 := by
      rcases hin with ⟨-, -, h3, h4⟩
      simp only [] at h3 h4
      omega
    rcases hx with rfl | rfl | rfl <;> rcases hy with rfl | rfl | rfl <;> rfl

theorem c1_backtracking_exhaustive_witness :
    inB 3 ((0 : Int), (0 : Int)) ∧ ¬ IsKnightTour 3 (0, 0) [((0 : Int), (0 : Int))] :=
  ⟨by decide,
    c1_backtracking_exhaustive.1 3 0 0 (by decide) emptyBoard [] (by rfl)
      [((0 : Int), (0 : Int))]⟩

/-- C9: the iterative backtracking solver terminates for every board size and
in-bounds start cell on a fresh board: the fuel bound is never exhausted. -/
theorem c9_solver_terminates (n : Nat) (sx sy : Int) (hin : inB n (sx, sy)) :
    ∃ r, solve n sx sy = some r :=
  solve_terminates n sx sy hin

theorem c9_solver_terminates_witness :
    inB 1 ((0 : Int), (0 : Int)) ∧ ∃ r, solve 1 0 0 = some r :=
  ⟨by decide, c9_solver_terminates 1 0 0 (by decide)⟩

/-- C2: whenever the single-attempt Warnsdorff solver (on a fresh board) or
the backtracking solver reports success, the resulting path has length `n²`,
all cells in bounds and pairwise distinct, covers every board cell, and
every consecutive pair is a knight move. -/
theorem c2_success_yields_valid_tour :
    (∀ (famQ : Int → Nat → PyFloat) (n : Nat) (sx sy : Int) (variation : Nat)
        (prefs : List Nat) (r : PyRandom),
      (∀ i ∈ prefs, i < 8) → inB n (sx, sy) →
      (solveVariation famQ n sx sy variation prefs emptyBoard r).1 = true →
      IsKnightTour n (sx, sy)
          (solveVariation famQ n sx sy variation prefs emptyBoard r).2.path ∧
        coversBoard n (solveVariation famQ n sx sy variation prefs emptyBoard r).2.path) ∧
    (∀ (n : Nat) (sx sy : Int) (b : Board) (p : List Pos), inB n (sx, sy) →
      solve n sx sy = some (true, b, p) →
      IsKnightTour n (sx, sy) p ∧ coversBoard n p) := by
  constructor
  · intro famQ n sx sy variation prefs r hpref hin hsucc
    rcases solveVariation_spec famQ n sx sy variation prefs r hpref hin with ⟨hinv, hiff⟩
    have hlen := hiff.mp hsucc
    rcases hinv with ⟨-, hhead, hinb, hchain, horder⟩
    have hnd := OrderInv_nodup horder
    exact ⟨⟨hlen, hhead, hinb, hnd, hchain⟩,
      covers_of_nodup n _ hnd hinb hlen⟩
  · intro n sx sy b p hin h
    rcases solve_true n sx sy hin b p h with ⟨h1, h2, -⟩
    exact ⟨h1, h2⟩

theorem c2_success_yields_valid_tour_witness :
    inB 1 ((0 : Int), (0 : Int)) ∧
      (IsKnightTour 1 (0, 0) [((0 : Int), (0 : Int))] ∧
        coversBoard 1 [((0 : Int), (0 : Int))]) :=
  ⟨by decide,
    c2_success_yields_valid_tour.2 1 0 0 (emptyBoard.set 0 0 0) [(0, 0)]
      (by decide) (by rfl)⟩

/-- C7: one Warnsdorff attempt is a deterministic function of the board size,
start cell, variation, preference order, incoming board and random stream:
identical streams give identical results. -/
theorem c7_attempt_deterministic (famQ1 famQ2 : Int → Nat → PyFloat) (n : Nat)
    (sx sy : Int) (variation : Nat) (prefs : List Nat) (b0 : Board) (r : PyRandom)
    (h : ∀ sd k, famQ1 sd k = famQ2 sd k) :
    solveVariation famQ1 n sx sy variation prefs b0 r
      = solveVariation famQ2 n sx sy variation prefs b0 r := by
  have : famQ1 = famQ2 := funext (fun sd => funext (fun k => h sd k))
  rw [this]

theorem c7_attempt_deterministic_witness :
    solveVariation (fun _ _ => (⟨0, 1⟩ : PyFloat)) 5 0 0 0 (List.range 8)
        emptyBoard (pySeed 0)
      = solveVariation (fun _ _ => (⟨0, 1⟩ : PyFloat)) 5 0 0 0 (List.range 8)
        emptyBoard (pySeed 0) :=
  c7_attempt_deterministic (fun _ _ => ⟨0, 1⟩) (fun _ _ => ⟨0, 1⟩) 5 0 0 0
    (List.range 8) emptyBoard (pySeed 0) (fun _ _ => rfl)

/-- C10: on the degenerate 1×1 board, a Warnsdorff attempt succeeds
immediately with path `[(0,0)]`, order 0 in the single cell, and the random
state untouched (no candidate scored, no tie-break drawn), and the
backtracking solver succeeds immediately with the same path. -/
theorem c10_one_by_one_board :
    (∀ (famQ : Int → Nat → PyFloat) (variation : Nat) (prefs : List Nat)
        (r : PyRandom),
      (solveVariation famQ 1 0 0 variation prefs emptyBoard r).1 = true ∧
      (solveVariation famQ 1 0 0 variation prefs emptyBoard r).2.path = [(0, 0)] ∧
      (solveVariation famQ 1 0 0 variation prefs emptyBoard r).2.rng = r ∧
      (solveVariation famQ 1 0 0 variation prefs emptyBoard r).2.board 0 0 = 0 ∧
      (∀ x y : Int, ¬(x = 0 ∧ y = 0) →
        (solveVariation famQ 1 0 0 variation prefs emptyBoard r).2.board x y = -1)) ∧
    (solve 1 0 0 = some (true, emptyBoard.set 0 0 0, [(0, 0)]) ∧
      (emptyBoard.set 0 0 0) 0 0 = 0 ∧
      (∀ x y : Int, ¬(x = 0 ∧ y = 0) → (emptyBoard.set 0 0 0) x y = -1)) := by
  constructor
  · intro famQ variation prefs r
    refine ⟨rfl, rfl, rfl, rfl, ?_⟩
    intro x y hxy
    show (emptyBoard.set 0 0 0) x y = -1
    rw [Board.set_other _ _ _ _ _ _ hxy]
    rfl
  · refine ⟨rfl, rfl, ?_⟩
    intro x y hxy
    rw [Board.set_other _ _ _ _ _ _ hxy]
    rfl

theorem c10_one_by_one_board_witness :
    ¬((1 : Int) = 0 ∧ (1 : Int) = 0) ∧
    (solveVariation (fun _ _ => (⟨0, 1⟩ : PyFloat)) 1 0 0 0 (List.range 8)
        emptyBoard (pySeed 7)).2.board 1 1 = -1 :=
  ⟨by decide,
    ((c10_one_by_one_board.1 (fun _ _ => ⟨0, 1⟩) 0 (List.range 8)
      (pySeed 7)).2.2.2.2) 1 1 (by decide)⟩

/-- C3 (counterexample): the orchestrator can return Failure while leaving a
partially-filled board and a nonempty path — on the 2×2 board from `(0,0)`
one attempt dead-ends immediately after placing the start, the budget is
exhausted, and the failure is returned with `path = [(0,0)]` and order 0
still stored at `(0,0)`. -/
theorem c3_failure_state_counterexample :
    (orchestrate (fun _ _ => (⟨0, 1⟩ : PyFloat))
        (fun _ _ => (List.range 8, 0)) (fun _ => 0) 2 0 0 1
        emptyBoard [] (pySeed 0)).1 = false ∧
    (orchestrate (fun _ _ => (⟨0, 1⟩ : PyFloat))
        (fun _ _ => (List.range 8, 0)) (fun _ => 0) 2 0 0 1
        emptyBoard [] (pySeed 0)).2.path ≠ [] ∧
    (orchestrate (fun _ _ => (⟨0, 1⟩ : PyFloat))
        (fun _ _ => (List.range 8, 0)) (fun _ => 0) 2 0 0 1
        emptyBoard [] (pySeed 0)).2.board 0 0 ≠ -1 := by
  refine ⟨rfl, ?_, ?_⟩
  · intro h
    exact List.cons_ne_nil _ _ (by rw [← h]; rfl)
  · intro h
    have h2 : (0 : Int) = -1 := by rw [← h]; rfl
    exact absurd h2 (by decide)

/-- C3 (amended): only the backtracking solver resets on failure — after
`solve` returns Failure every cell holds the unvisited sentinel and the path
is empty; a Warnsdorff dead end or orchestrator exhaustion instead leaves the
final attempt's partial board and path in place. -/
theorem c3_failure_state_amended (n : Nat) (sx sy : Int) (b : Board)
    (p : List Pos) (hin : inB n (sx, sy))
    (h : solve n sx sy = some (false, b, p)) :
    (∀ x y, b x y = -1) ∧ p = [] := by
  rcases solve_false n sx sy hin b p h with ⟨-, hb, hp⟩
  subst hb
  exact ⟨fun x y => rfl, hp⟩

theorem c3_failure_state_amended_witness :
    inB 3 ((0 : Int), (0 : Int)) ∧ emptyBoard 2 2 = -1 :=
  ⟨by decide,
    (c3_failure_state_amended 3 0 0 emptyBoard [] (by decide) (by rfl)).1 2 2⟩

/-- C8: the board/path order invariant — the `j`-th path cell holds order `j`,
each order value below the path length sits in exactly one cell, and all other
cells hold the sentinel — is established at initialisation, preserved by every
placement step and by every undo step, holds at every intermediate state of
the backtracking loop, and holds for the final state of every Warnsdorff
attempt budget. -/
theorem c8_order_invariant :
    (∀ (n : Nat) (b : Board) (p : List Pos) (c : Pos), OrderInv n b p →
      b c.1 c.2 = -1 →
      OrderInv n (b.set c.1 c.2 (p.length : Int)) (p ++ [c]) ∧
        ExactOrders n (b.set c.1 c.2 (p.length : Int)) (p ++ [c])) ∧
    (∀ (n : Nat) (b : Board) (p : List Pos) (c : Pos), OrderInv n b (p ++ [c]) →
      OrderInv n (b.set c.1 c.2 (-1)) p ∧ ExactOrders n (b.set c.1 c.2 (-1)) p) ∧
    (∀ (n : Nat) (sx sy : Int) (fuel : Nat) (s2 : BTState), inB n (sx, sy) →
      btRun n fuel (btInit n sx sy) = Sum.inr s2 → s2.stack ≠ [] →
      OrderInv n s2.board s2.path ∧ ExactOrders n s2.board s2.path) ∧
    (∀ (famQ : Int → Nat → PyFloat) (n : Nat) (sx sy : Int) (variation : Nat)
        (prefs : List Nat) (r : PyRandom), (∀ i ∈ prefs, i < 8) → inB n (sx, sy) →
      OrderInv n (solveVariation famQ n sx sy variation prefs emptyBoard r).2.board
          (solveVariation famQ n sx sy variation prefs emptyBoard r).2.path ∧
        ExactOrders n (solveVariation famQ n sx sy variation prefs emptyBoard r).2.board
          (solveVariation famQ n sx sy variation prefs emptyBoard r).2.path) := by
  refine ⟨?_, ?_, ?_, ?_⟩
  · intro n b p c h hc
    have := OrderInv_place h hc
    exact ⟨this, OrderInv_exact this⟩
  · intro n b p c h
    have := OrderInv_unplace h
    exact ⟨this, OrderInv_exact this⟩
  · intro n sx sy fuel s2 hin hrun hne
    have := btRun_mid fuel (btInit n sx sy) s2 hrun (btInit_inv n sx sy hin) hne
    exact ⟨this, OrderInv_exact this⟩
  · intro famQ n sx sy variation prefs r hpref hin
    have := (solveVariation_spec famQ n sx sy variation prefs r hpref hin).1.2.2.2.2
    exact ⟨this, OrderInv_exact this⟩

theorem c8_order_invariant_witness :
    inB 1 ((0 : Int), (0 : Int)) ∧ (btInit 1 0 0).stack ≠ [] ∧
      (OrderInv 1 (btInit 1 0 0).board (btInit 1 0 0).path ∧
        ExactOrders 1 (btInit 1 0 0).board (btInit 1 0 0).path) :=
  ⟨by decide, by decide,
    c8_order_invariant.2.2.1 1 0 0 0 (btInit 1 0 0) (by decide) (by rfl) (by decide)⟩

/-- C5: attempt `i` of the orchestrator uses scoring variant `i mod 3` and
seed `i + 1000·n`, reseeds the generator and draws the preference permutation
from position 0 of that seed's stream, and runs the attempt on a freshly
reset board and path; the run's records are exactly the per-attempt records
of an initial segment of attempt indices, and the returned flag, record list
and fingerprint set are independent of the incoming board, path and random
state, so identical invocations perform identical attempt sequences. -/
theorem c5_orchestrator_policy (famQ : Int → Nat → PyFloat)
    (famPerm : Int → Nat → List Nat × Nat) (hashF : List Pos × List Pos → Int)
    (n : Nat) (sx sy : Int) (ma : Nat) (b0 : Board) (p0 : List Pos) (r0 : PyRandom) :
    (∃ t, t ≤ ma ∧
      (orchestrate famQ famPerm hashF n sx sy ma b0 p0 r0).2.stats
        = (List.range t).map (attemptRecordOf famQ famPerm n sx sy)) ∧
    (∀ i : Nat,
      (attemptRecordOf famQ famPerm n sx sy i).variationType = i % 3 ∧
      (attemptRecordOf famQ famPerm n sx sy i).randomSeed = (i : Int) + (n : Int) * 1000 ∧
      (attemptRecordOf famQ famPerm n sx sy i).movePreferences
        = (famPerm ((i : Int) + (n : Int) * 1000) 0).1 ∧
      (attemptRecordOf famQ famPerm n sx sy i).successful
        = (attemptRun famQ famPerm n sx sy i).1 ∧
      (attemptRecordOf famQ famPerm n sx sy i).pathLength
        = (attemptRun famQ famPerm n sx sy i).2.path.length ∧
      attemptRun famQ famPerm n sx sy i
        = solveVariation famQ n sx sy (i % 3)
            (famPerm ((i : Int) + (n : Int) * 1000) 0).1 emptyBoard
            ⟨(i : Int) + (n : Int) * 1000, (famPerm ((i : Int) + (n : Int) * 1000) 0).2⟩) ∧
    (∀ (b1 : Board) (p1 : List Pos) (r1 : PyRandom),
      (orchestrate famQ famPerm hashF n sx sy ma b1 p1 r1).1
        = (orchestrate famQ famPerm hashF n sx sy ma b0 p0 r0).1 ∧
      (orchestrate famQ famPerm hashF n sx sy ma b1 p1 r1).2.stats
        = (orchestrate famQ famPerm hashF n sx sy ma b0 p0 r0).2.stats ∧
      (orchestrate famQ famPerm hashF n sx sy ma b1 p1 r1).2.attempted
        = (orchestrate famQ famPerm hashF n sx sy ma b0 p0 r0).2.attempted) := by
  refine ⟨?_, ?_, ?_⟩
  · rcases orchDelta_stats famQ famPerm hashF n sx sy ma 0 [] with ⟨t, ht, hmap, -⟩
    refine ⟨t, ht, ?_⟩
    have hd := orchLoop_delta famQ famPerm hashF n sx sy ma 0
      { board := b0, path := p0, rng := r0, stats := [], attempted := [] }
    unfold orchestrate
    rw [hd.2.1]
    simp only [List.nil_append]
    rw [hmap, List.range_eq_range']
  · intro i
    exact ⟨rfl, rfl, rfl, rfl, rfl, rfl⟩
  · intro b1 p1 r1
    have hd0 := orchLoop_delta famQ famPerm hashF n sx sy ma 0
      { board := b0, path := p0, rng := r0, stats := [], attempted := [] }
    have hd1 := orchLoop_delta famQ famPerm hashF n sx sy ma 0
      { board := b1, path := p1, rng := r1, stats := [], attempted := [] }
    unfold orchestrate
    refine ⟨?_, ?_, ?_⟩
    · rw [hd0.1, hd1.1]
    · rw [hd0.2.1, hd1.2.1]
    · rw [hd0.2.2, hd1.2.2]

/-- C4 (counterexample): with the abstract generator and fingerprint families
instantiated concretely (zero tie-breaks, a permutation family that gives
attempt 0 the order `[4,2,3,1,0,5,6,7]` and attempt 1 the identity order, and
a constant fingerprint function), on the 5×5 board from `(1,1)` with a budget
of 2: attempt 0 fails, attempt 1 succeeds — so no prior successful attempt
exists and the claim requires an immediate success return — yet the
orchestrator flags attempt 1 as a duplicate of the failed attempt 0's
recorded fingerprint and returns Failure. -/
theorem c4_duplicate_policy_counterexample :
    (attemptRun (fun _ _ => (⟨0, 1⟩ : PyFloat))
        (fun sd _ => (if sd = 5000 then [4, 2, 3, 1, 0, 5, 6, 7] else List.range 8, 0))
        5 1 1 0).1 = false ∧
    (attemptRun (fun _ _ => (⟨0, 1⟩ : PyFloat))
        (fun sd _ => (if sd = 5000 then [4, 2, 3, 1, 0, 5, 6, 7] else List.range 8, 0))
        5 1 1 1).1 = true ∧
    (orchestrate (fun _ _ => (⟨0, 1⟩ : PyFloat))
        (fun sd _ => (if sd = 5000 then [4, 2, 3, 1, 0, 5, 6, 7] else List.range 8, 0))
        (fun _ => 0) 5 1 1 2 emptyBoard [] (pySeed 0)).1 = false :=
  ⟨rfl, rfl, rfl⟩

/-- C4 (amended): a successful attempt is flagged as a duplicate exactly when
its fingerprint is already in the recorded set, which contains the
fingerprints of all earlier attempts of the run that left a nonempty path —
failed attempts' partial paths included, not only prior successes.  The
orchestrator returns success exactly when some attempt within the budget
succeeds with an unrecorded fingerprint and no earlier attempt did so; when
it returns Failure, all `max_attempts` attempts were executed. -/
theorem c4_duplicate_policy_amended (famQ : Int → Nat → PyFloat)
    (famPerm : Int → Nat → List Nat × Nat) (hashF : List Pos × List Pos → Int)
    (n : Nat) (sx sy : Int) (ma : Nat) (b0 : Board) (p0 : List Pos) (r0 : PyRandom) :
    ((orchestrate famQ famPerm hashF n sx sy ma b0 p0 r0).1 = true ↔
      ∃ t, t < ma ∧ NovelAt famQ famPerm hashF n sx sy t ∧
        ∀ j, j < t → ¬ NovelAt famQ famPerm hashF n sx sy j) ∧
    ((orchestrate famQ famPerm hashF n sx sy ma b0 p0 r0).1 = false →
      (orchestrate famQ famPerm hashF n sx sy ma b0 p0 r0).2.stats.length = ma) := by
  have hd := orchLoop_delta famQ famPerm hashF n sx sy ma 0
    { board := b0, path := p0, rng := r0, stats := [], attempted := [] }
  have hacc0 : accSet famQ famPerm hashF n sx sy 0 = [] := rfl
  constructor
  · unfold orchestrate
    rw [hd.1]
    have := orchDelta_c4 famQ famPerm hashF n sx sy ma 0
    rw [hacc0] at this
    rw [this]
    constructor
    · rintro ⟨t, -, ht2, hnov, hmin⟩
      exact ⟨t, by omega, hnov, fun j hj => hmin j (by omega) hj⟩
    · rintro ⟨t, ht, hnov, hmin⟩
      exact ⟨t, by omega, by omega, hnov, fun j _ hj => hmin j hj⟩
  · intro hfalse
    unfold orchestrate at hfalse ⊢
    rw [hd.1] at hfalse
    rcases orchDelta_stats famQ famPerm hashF n sx sy ma 0 [] with ⟨t, ht, hmap, hfull⟩
    rw [hd.2.1]
    simp only [List.nil_append]
    rw [hmap]
    simp only [List.length_map, List.length_range']
    exact hfull hfalse

theorem c4_duplicate_policy_amended_witness :
    (orchestrate (fun _ _ => (⟨0, 1⟩ : PyFloat)) (fun _ _ => (List.range 8, 0))
        (fun _ => 0) 1 0 0 0 emptyBoard [] (pySeed 0)).2.stats.length = 0 :=
  (c4_duplicate_policy_amended (fun _ _ => ⟨0, 1⟩) (fun _ _ => (List.range 8, 0))
    (fun _ => 0) 1 0 0 0 emptyBoard [] (pySeed 0)).2 (by rfl)

theorem toRat_ofInt (z : Int) : (PyFloat.ofInt z).toRat = (z : ℚ) := by
  simp [PyFloat.ofInt, PyFloat.toRat]

theorem toRat_add (a b : PyFloat) (ha : 0 < a.den) (hb : 0 < b.den) :
    (a.add b).toRat = a.toRat + b.toRat := by
  unfold PyFloat.add PyFloat.toRat
  rw [div_add_div _ _ (by exact_mod_cast (by omega : ¬ a.den = 0))
    (by exact_mod_cast (by omega : ¬ b.den = 0))]
  push_cast
  ring_nf

theorem toRat_mul (a b : PyFloat) : (a.mul b).toRat = a.toRat * b.toRat := by
  unfold PyFloat.mul PyFloat.toRat
  push_cast
  rw [div_mul_div_comm]

theorem toRat_tenth : tenth.toRat = 1 / 10 := by
  norm_num [tenth, PyFloat.toRat]

theorem scoringFunc_posden (n variation : Nat) (nx ny : Int) (deg : Nat)
    (rf : PyFloat) (h : 0 < rf.den) :
    PosDen (scoringFunc n variation nx ny deg rf) := by
  unfold scoringFunc scoreRandom scoreCenter scoreCorners PosDen PyFloat.add PyFloat.ofInt
  by_cases h1 : variation = 1
  · rw [if_pos h1]
    constructor
    · simp
    · simp only []
      omega
  · rw [if_neg h1]
    by_cases h2 : variation = 2
    · rw [if_pos h2]
      constructor
      · simp
      · simp only []
        omega
    · rw [if_neg h2]
      constructor
      · simp only []
        omega
      · simp

theorem scoredCands_posden (famQ : Int → Nat → PyFloat) (n : Nat) (b : Board)
    (x y : Int) (variation : Nat) (prefs : List Nat) (r : PyRandom)
    (hq : ∀ sd k, 0 < (famQ sd k).den) :
    ∀ e ∈ (scoredCands famQ n b x y variation prefs r).1, PosDen e.1 := by
  intro e he
  rcases scoredCands_mem famQ n b x y variation prefs r e he with ⟨i, -, -, -, k, hsc⟩
  rw [hsc]
  apply scoringFunc_posden
  show 0 < (famQ r.sd k).den * tenth.den
  have := hq r.sd k
  unfold tenth
  positivity

/-- C6: one greedy step scans the preferences in order keeping the valid
candidates, each scored by the selected strategy at its degree with a fresh
tie-break of value in `[0, 0.1)`; the step fails exactly when none of the 8
moves is valid, and otherwise moves to a candidate of minimal score; the
strategies compute (degree + tieBreak), (degree, center-distance + tieBreak)
and (degree, −min-corner-distance + tieBreak); an attempt succeeds exactly
when `n²` cells are placed. -/
theorem c6_step_selection (famQ : Int → Nat → PyFloat) (n : Nat) (b : Board)
    (x y : Int) (prefs : List Nat) (variation : Nat) (r : PyRandom)
    (hq : ∀ sd k, 0 ≤ (famQ sd k).toRat ∧ (famQ sd k).toRat < 1 ∧ 0 < (famQ sd k).den)
    (hperm : prefs.Perm (List.range 8)) :
    ((getNextMove famQ n b x y prefs variation r).1 = none ↔
      ∀ i, i < 8 → ¬ isValidMove n b (x + movesX.getD i 0) (y + movesY.getD i 0) = true) ∧
    (∀ nc r2, getNextMove famQ n b x y prefs variation r = (some nc, r2) →
      isValidMove n b nc.1 nc.2 = true ∧
      (∃ i ∈ prefs, nc = (x + movesX.getD i 0, y + movesY.getD i 0)) ∧
      ∃ e ∈ (scoredCands famQ n b x y variation prefs r).1, e.2 = nc ∧
        ∀ e2 ∈ (scoredCands famQ n b x y variation prefs r).1, ¬ scoreValLt e2.1 e.1) ∧
    (∀ e ∈ (scoredCands famQ n b x y variation prefs r).1,
      isValidMove n b e.2.1 e.2.2 = true ∧
      ∃ rf : PyFloat, 0 ≤ rf.toRat ∧ rf.toRat < 1 / 10 ∧ 0 < rf.den ∧
        e.1 = scoringFunc n variation e.2.1 e.2.2
          (countValidMoves n b e.2.1 e.2.2) rf) ∧
    (∀ (nx ny : Int) (deg : Nat) (rf : PyFloat), 0 < rf.den →
      ((scoringFunc n 0 nx ny deg rf).1.toRat = (deg : ℚ) + rf.toRat ∧
        (scoringFunc n 0 nx ny deg rf).2.toRat = 0) ∧
      ((scoringFunc n 1 nx ny deg rf).1.toRat = (deg : ℚ) ∧
        (scoringFunc n 1 nx ny deg rf).2.toRat =
          ((|nx - ((n / 2 : Nat) : Int)| + |ny - ((n / 2 : Nat) : Int)| : Int) : ℚ)
            + rf.toRat) ∧
      ((scoringFunc n 2 nx ny deg rf).1.toRat = (deg : ℚ) ∧
        (scoringFunc n 2 nx ny deg rf).2.toRat =
          ((-(min (min (|nx| + |ny|) (|nx| + |ny - ((n : Int) - 1)|))
              (min (|nx - ((n : Int) - 1)| + |ny|)
                (|nx - ((n : Int) - 1)| + |ny - ((n : Int) - 1)|))) : Int) : ℚ)
            + rf.toRat)) ∧
    (∀ (sx sy : Int) (r2 : PyRandom), inB n (sx, sy) →
      ((solveVariation famQ n sx sy variation prefs emptyBoard r2).1 = true ↔
        (solveVariation famQ n sx sy variation prefs emptyBoard r2).2.path.length
          = n * n)) := by
  have hden : ∀ sd k, 0 < (famQ sd k).den := fun sd k => (hq sd k).2.2
  have hpref8 : ∀ i ∈ prefs, i < 8 := by
    intro i hi
    have := hperm.mem_iff.mp hi
    exact List.mem_range.mp this
  refine ⟨?_, ?_, ?_, ?_, ?_⟩
  · rw [getNextMove_none_iff]
    constructor
    · intro h i hi
      exact h i (hperm.mem_iff.mpr (List.mem_range.mpr hi))
    · intro h i hi
      exact h i (hpref8 i hi)
  · intro nc r2 hg
    rcases getNextMove_some famQ n b x y prefs variation r nc r2 hg with ⟨i, hi, htgt, hval⟩
    refine ⟨hval, ⟨i, hi, htgt⟩, ?_⟩
    unfold getNextMove at hg
    rw [collectCands_eq] at hg
    rcases hpb : pickBest (scoredCands famQ n b x y variation prefs r).1 with - | m
    · simp only [hpb, Prod.mk.injEq] at hg
      exact absurd hg.1 (by simp)
    · simp only [hpb, Prod.mk.injEq, Option.some_inj] at hg
      refine ⟨m, pickBest_mem _ _ hpb, hg.1, ?_⟩
      exact pickBest_min _ _ (scoredCands_posden famQ n b x y variation prefs r hden) hpb
  · intro e he
    rcases scoredCands_mem famQ n b x y variation prefs r e he with ⟨i, -, -, hval, k, hsc⟩
    refine ⟨hval, (famQ r.sd k).mul tenth, ?_, ?_, ?_, hsc⟩
    · rw [toRat_mul, toRat_tenth]
      have := (hq r.sd k).1
      positivity
    · rw [toRat_mul, toRat_tenth]
      have h1 := (hq r.sd k).1
      have h2 := (hq r.sd k).2.1
      nlinarith
    · show 0 < (famQ r.sd k).den * tenth.den
      have := hden r.sd k
      unfold tenth
      positivity
  · intro nx ny deg rf hrf
    refine ⟨⟨?_, ?_⟩, ⟨?_, ?_⟩, ⟨?_, ?_⟩⟩
    · show ((PyFloat.ofInt (deg : Int)).add rf).toRat = (deg : ℚ) + rf.toRat
      rw [toRat_add _ _ (by simp [PyFloat.ofInt]) hrf, toRat_ofInt]
      push_cast
      ring
    · show (PyFloat.ofInt 0).toRat = 0
      rw [toRat_ofInt]
      norm_num
    · show (PyFloat.ofInt (deg : Int)).toRat = (deg : ℚ)
      rw [toRat_ofInt]
      push_cast
      ring
    · show ((PyFloat.ofInt _).add rf).toRat = _
      rw [toRat_add _ _ (by simp [PyFloat.ofInt]) hrf, toRat_ofInt]
    · show (PyFloat.ofInt (deg : Int)).toRat = (deg : ℚ)
      rw [toRat_ofInt]
      push_cast
      ring
    · show ((PyFloat.ofInt _).add rf).toRat = _
      rw [toRat_add _ _ (by simp [PyFloat.ofInt]) hrf, toRat_ofInt]
  · intro sx sy r2 hin
    exact (solveVariation_spec famQ n sx sy variation prefs r2 hpref8 hin).2

theorem c6_step_selection_witness :
    (solveVariation (fun _ _ => (⟨0, 1⟩ : PyFloat)) 1 0 0 0 (List.range 8)
        emptyBoard (pySeed 0)).1 = true ↔
      (solveVariation (fun _ _ => (⟨0, 1⟩ : PyFloat)) 1 0 0 0 (List.range 8)
        emptyBoard (pySeed 0)).2.path.length = 1 * 1 :=
  (c6_step_selection (fun _ _ => ⟨0, 1⟩) 1 emptyBoard 0 0 (List.range 8) 0 (pySeed 0)
    (fun _ _ => ⟨by simp [PyFloat.toRat], by simp [PyFloat.toRat], by simp⟩)
    (List.Perm.refl _)).2.2.2.2 0 0 (pySeed 0) (by decide)

end Knight
